import Mathlib

/-!
Verification of the approval-gated modification workflow of the coding-agent
repository.  The definitions below are a shallow embedding of `src/agent.py`
(turn controller, approval gate), `src/tools/approval.py` (diff/change builder
and display helpers) and `src/tools/utils.py` (the `safe_tool` wrapper).
Machine strings are Lean `String`s; Python dictionaries and JSON payloads are
modelled by the `PyObj` inductive; node functions are pure state transformers.
-/

set_option maxRecDepth 4000

/-! ## Python-ish values

`PyObj` models the Python values that flow through tool results and the
pending-change plan: strings, ints, bools, None, lists and dicts. -/

inductive PyObj where
  | pstr (s : String)
  | pint (n : Int)
  | pbool (b : Bool)
  | pnone
  | plist (items : List PyObj)
  | pdict (fields : List (String × PyObj))
  deriving Repr

/-- `"diff" in d` for a dict value `d`: the discriminator used by
`tools_node` (agent.py line 505) after parsing a tool result. -/
def PyObj.isDictWithDiff : PyObj → Bool
  | .pdict fs => fs.any (fun kv => kv.1 == "diff")
  | _ => false

def PyObj.isDict : PyObj → Bool
  | .pdict _ => true
  | _ => false

/-! ## Python string helpers used by `approval_check_node`

`msg.content.lower().strip()` (agent.py line 407).  `lower` is modelled for
ASCII letters (all vocabulary words are ASCII); `strip` removes the ASCII
whitespace characters Python strips. -/

def pyCharLower (c : Char) : Char :=
  if 'A' ≤ c ∧ c ≤ 'Z' then Char.ofNat (c.toNat + 32) else c

def pyLower (s : String) : String :=
  ⟨s.data.map pyCharLower⟩

def isPySpace (c : Char) : Bool :=
  c == ' ' || c == '\t' || c == '\n' || c == '\x0d' || c == '\x0b' || c == '\x0c'

def pyStrip (s : String) : String :=
  ⟨((s.data.dropWhile isPySpace).reverse.dropWhile isPySpace).reverse⟩

/-- The normalization `content.lower().strip()` applied to a human utterance
before vocabulary matching (agent.py line 407). -/
def pyNorm (s : String) : String := pyStrip (pyLower s)

/-! ## Messages and agent state -/

structure ToolCall where
  name : String
  id : String
  deriving Repr, DecidableEq

/-- LangChain message kinds used by the agent: `SystemMessage`,
`HumanMessage`, `AIMessage` (with tool calls) and `ToolMessage`. -/
inductive Msg where
  | system (content : String)
  | human (content : String)
  | ai (content : String) (tool_calls : List ToolCall)
  | tool (tool_call_id : String) (content : PyObj)
  deriving Repr

def Msg.isSystem : Msg → Bool
  | .system _ => true
  | _ => false

/-- The `AgentState` TypedDict of agent.py (lines 84-114).  The extra `fs`
field models the working tree (a path ↦ content map) so that frame conditions
about file I/O can be stated; no function below writes it except
`apply_pending_change`. -/
structure AgentState where
  messages : List Msg
  pending_changes : List PyObj
  awaiting_modification_approval : Bool
  awaiting_push_approval : Bool
  modification_approved : Bool
  push_approved : Bool
  current_branch : Option String
  original_branch : Option String
  branch_created : Bool
  mop_content : Option PyObj
  agent_md_content : Option String
  repo_path : Option String
  mop_path : Option String
  user_feedback : Option String
  fs : List (String × String)
  deriving Repr

/-- `create_initial_state` (agent.py lines 614-631), with an empty modelled
working tree. -/
def create_initial_state (repo_path mop_path : Option String) : AgentState :=
  { messages := []
    pending_changes := []
    awaiting_modification_approval := false
    awaiting_push_approval := false
    modification_approved := false
    push_approved := false
    current_branch := none
    original_branch := none
    branch_created := false
    mop_content := none
    agent_md_content := none
    repo_path := repo_path
    mop_path := mop_path
    user_feedback := none
    fs := [] }

/-! ## Approval gate (`approval_check_node`, agent.py lines 399-450) -/

/-- The scan `for msg in reversed(messages): if isinstance(msg, HumanMessage)`
(agent.py lines 405-408): content of the latest human message, un-normalized. -/
def lastHumanRaw (msgs : List Msg) : Option String :=
  msgs.reverse.findSome? fun m =>
    match m with
    | .human c => some c
    | _ => none

def modificationApproveVocab : List String :=
  ["approve", "yes", "proceed", "ok", "go ahead", "lgtm"]

def modificationRejectVocab : List String :=
  ["reject", "no", "cancel", "abort"]

def pushApproveVocab : List String :=
  ["push", "yes", "proceed", "ok", "go ahead"]

def pushRejectVocab : List String :=
  ["cancel", "no", "skip", "abort"]

/-- `approval_check_node` (agent.py lines 399-450).  The node returns a state
update; here the update is applied to the state directly.  The node touches no
file or git state.  The guard at line 410 (`if not last_user_message:
return {}`) covers both a transcript with no human message (`none` below) and
a reply that normalizes to the empty string (Python's falsy `""`). -/
def approval_check_node (st : AgentState) : AgentState :=
  match lastHumanRaw st.messages with
  | none => st
  | some raw =>
    let last_user_message := pyNorm raw
    if last_user_message = "" then st
    else if st.awaiting_modification_approval then
      if last_user_message ∈ modificationApproveVocab then
        { st with modification_approved := true
                  awaiting_modification_approval := false }
      else if last_user_message ∈ modificationRejectVocab then
        { st with modification_approved := false
                  awaiting_modification_approval := false
                  pending_changes := [] }
      else
        { st with user_feedback := some last_user_message }
    else if st.awaiting_push_approval then
      if last_user_message ∈ pushApproveVocab then
        { st with push_approved := true
                  awaiting_push_approval := false }
      else if last_user_message ∈ pushRejectVocab then
        { st with push_approved := false
                  awaiting_push_approval := false }
      else
        { st with user_feedback := some last_user_message }
    else st

/-! ## Ensure-system-message step of `agent_node` (agent.py lines 264-280)

`if not messages or not isinstance(messages[0], SystemMessage): messages =
[SystemMessage(content=system_content)] + list(messages)`.  The concrete
system content (SYSTEM_PROMPT plus optional AGENT.md / MOP context) is
abstracted as the `system_content` argument. -/

def ensure_system_message (system_content : String) (messages : List Msg) : List Msg :=
  match messages with
  | .system c :: rest => .system c :: rest
  | _ => .system system_content :: messages

def systemCount (msgs : List Msg) : Nat :=
  (msgs.filter Msg.isSystem).length

def startsWithSystem : List Msg → Bool
  | .system _ :: _ => true
  | _ => false

/-! ## A small JSON reader

`tools_node` runs `json.loads(msg.content)` on string tool results (agent.py
line 504).  The reader below covers the JSON subset the modification tools
emit (objects, arrays, strings with simple escapes, integers, booleans,
null); on anything else it returns `none`, which `tools_node` treats the same
way the source treats a `json.loads` exception. -/

def jsonSkipWs (cs : List Char) : List Char :=
  cs.dropWhile fun c => c == ' ' || c == '\t' || c == '\n' || c == '\x0d'

def parseJStringBody (acc : List Char) : List Char → Option (String × List Char)
  | [] => none
  | '"' :: rest => some (⟨acc.reverse⟩, rest)
  | '\\' :: e :: rest =>
    match e with
    | '"' => parseJStringBody ('"' :: acc) rest
    | '\\' => parseJStringBody ('\\' :: acc) rest
    | '/' => parseJStringBody ('/' :: acc) rest
    | 'n' => parseJStringBody ('\n' :: acc) rest
    | 't' => parseJStringBody ('\t' :: acc) rest
    | 'r' => parseJStringBody ('\x0d' :: acc) rest
    | 'b' => parseJStringBody ('\x08' :: acc) rest
    | 'f' => parseJStringBody ('\x0c' :: acc) rest
    | _ => none
  | '\\' :: [] => none
  | c :: rest => parseJStringBody (c :: acc) rest

def digitsToNat (ds : List Char) : Nat :=
  ds.foldl (fun acc c => acc * 10 + (c.toNat - 48)) 0

def parseJNat (cs : List Char) : Option (Nat × List Char) :=
  let ds := cs.takeWhile Char.isDigit
  if ds.isEmpty then none else some (digitsToNat ds, cs.dropWhile Char.isDigit)

def expectChars (pat : List Char) (cs : List Char) : Option (List Char) :=
  match pat, cs with
  | [], rest => some rest
  | p :: ps, c :: rest => if c = p then expectChars ps rest else none
  | _ :: _, [] => none

mutual

def parseJVal : Nat → List Char → Option (PyObj × List Char)
  | 0, _ => none
  | Nat.succ fuel, cs =>
    match jsonSkipWs cs with
    | [] => none
    | c :: rest =>
      if c = '"' then (parseJStringBody [] rest).map fun p => (.pstr p.1, p.2)
      else if c = 't' then (expectChars ['r', 'u', 'e'] rest).map fun r => (.pbool true, r)
      else if c = 'f' then
        (expectChars ['a', 'l', 's', 'e'] rest).map fun r => (.pbool false, r)
      else if c = 'n' then (expectChars ['u', 'l', 'l'] rest).map fun r => (.pnone, r)
      else if c = '[' then
        match jsonSkipWs rest with
        | ']' :: rest2 => some (.plist [], rest2)
        | _ => (parseJArrItems fuel rest).map fun p => (.plist p.1, p.2)
      else if c = '{' then
        match jsonSkipWs rest with
        | '}' :: rest2 => some (.pdict [], rest2)
        | _ => (parseJObjItems fuel rest).map fun p => (.pdict p.1, p.2)
      else if c = '-' then (parseJNat rest).map fun p => (.pint (-(p.1 : Int)), p.2)
      else if c.isDigit then (parseJNat (c :: rest)).map fun p => (.pint (p.1 : Int), p.2)
      else none

def parseJArrItems : Nat → List Char → Option (List PyObj × List Char)
  | 0, _ => none
  | Nat.succ fuel, cs => do
    let (v, rest) ← parseJVal fuel cs
    match jsonSkipWs rest with
    | ',' :: rest2 => do
      let (vs, rest3) ← parseJArrItems fuel rest2
      pure (v :: vs, rest3)
    | ']' :: rest2 => pure ([v], rest2)
    | _ => none

def parseJObjItems : Nat → List Char → Option (List (String × PyObj) × List Char)
  | 0, _ => none
  | Nat.succ fuel, cs => do
    match jsonSkipWs cs with
    | '"' :: rest => do
      let (k, rest2) ← parseJStringBody [] rest
      match jsonSkipWs rest2 with
      | ':' :: rest3 => do
        let (v, rest4) ← parseJVal fuel rest3
        match jsonSkipWs rest4 with
        | ',' :: rest5 => do
          let (kvs, rest6) ← parseJObjItems fuel rest5
          pure ((k, v) :: kvs, rest6)
        | '}' :: rest5 => pure ([(k, v)], rest5)
        | _ => none
      | _ => none
    | _ => none

end

/-- `json.loads` as used on a tool-result string: a full-input parse of the
JSON subset above. -/
def jsonLoads (s : String) : Option PyObj :=
  match parseJVal (s.length + 1) s.data with
  | some (v, rest) => if (jsonSkipWs rest).isEmpty then some v else none
  | none => none

/-- `json.loads(msg.content) if isinstance(msg.content, str) else msg.content`
(agent.py line 504); a parse failure is the `except: pass` path, modelled by
`none`. -/
def contentToVal : PyObj → Option PyObj
  | .pstr s => jsonLoads s
  | v => some v

/-! ## Turn controller tool step (`tools_node`, agent.py lines 453-516) -/

/-- The set literal at agent.py lines 490-493. -/
def modificationTools : List String :=
  ["modify_python_code", "add_import", "add_function",
   "modify_task", "add_task", "modify_variable", "modify_yaml_file"]

/-- The inner scan at agent.py lines 500-501: the first `ToolMessage` whose
`tool_call_id` matches the call. -/
def findResult : List Msg → String → Option PyObj
  | [], _ => none
  | .tool id c :: rest, callId =>
    if id = callId then some c else findResult rest callId
  | _ :: rest, callId => findResult rest callId

/-- The loop at agent.py lines 497-508: for each requested call, in request
order, if the tool is a modification tool and its result parses to a dict
containing `"diff"`, the parsed dict joins the plan. -/
def collectPending (calls : List ToolCall) (results : List Msg) : List PyObj :=
  calls.filterMap fun tc =>
    if tc.name ∈ modificationTools then
      match findResult results tc.id with
      | some content =>
        match contentToVal content with
        | some v => if v.isDictWithDiff then some v else none
        | none => none
      | none => none
    else none

/-- `tools_node` (agent.py lines 453-516).  Tool execution itself is external
I/O, abstracted by `exec`: the `ToolMessage` content produced for each call.

The guard at line 512 is `pending_changes != state.get("pending_changes", [])`.
`pending_changes` was bound at line 495 to the very list object stored in the
state and then mutated in place by `append`, so both sides of the `!=` are the
same already-mutated list and the comparison is always false: the
`updates["awaiting_modification_approval"] = True` branch (line 514) is
unreachable whenever the state carries a `pending_changes` key, which it
always does (see `create_initial_state`).  The in-place `append`s survive in
the shared channel value, so the plan itself still grows.  `plan_changed`
below is that always-false comparison. -/
def tools_node (exec : ToolCall → PyObj) (st : AgentState) : AgentState :=
  match st.messages.getLast? with
  | some (.ai _ calls) =>
    if calls.isEmpty then st
    else
      let results := calls.map fun tc => Msg.tool tc.id (exec tc)
      let newPending := st.pending_changes ++ collectPending calls results
      let plan_changed : Bool := false
      if plan_changed then
        { st with messages := st.messages ++ results
                  pending_changes := newPending
                  awaiting_modification_approval := true }
      else
        { st with messages := st.messages ++ results
                  pending_changes := newPending }
  | _ => st

/-! ## `safe_tool` (tools/utils.py lines 9-36)

A Python tool body either returns a value or raises; that is an
`Except String PyObj`.  The wrapper catches the exception and returns the
error description as an ordinary string result. -/

def safe_tool (name : String) (f : α → Except String PyObj) (x : α) : PyObj :=
  match f x with
  | .ok v => v
  | .error exc => .pstr ("Error in tool '" ++ name ++ "': " ++ exc)

/-! ## `apply_pending_change` (tools/approval.py lines 10-35)

The external apply step: the only modelled operation that writes the working
tree. -/

def apply_pending_change (fs : List (String × String)) (file_path new_content : String) :
    List (String × String) × String :=
  ((file_path, new_content) :: fs.filter (fun kv => kv.1 ≠ file_path),
   "Successfully applied change to '" ++ file_path ++ "'.")

/-! ## `format_changes_for_display` (tools/approval.py lines 122-170) -/

/-- Python `str.split('\n')`: split at every newline, keeping empty pieces;
never returns an empty list. -/
def pySplitNlAux (acc : List Char) : List Char → List String
  | [] => [⟨acc.reverse⟩]
  | '\n' :: rest => ⟨acc.reverse⟩ :: pySplitNlAux [] rest
  | c :: rest => pySplitNlAux (c :: acc) rest

def pySplitNl (s : String) : List String :=
  pySplitNlAux [] s.data

/-- `change.get(key, default)` followed by interpolation into an f-string.
The modification tools (tools/python_coding.py, tools/ansible_coding.py) emit
strings at the keys this display reads; `str()` of a non-string value is not
needed by any claim and is rendered by its `Repr`. -/
def pyFieldStr (fs : List (String × PyObj)) (key default : String) : String :=
  match fs.lookup key with
  | some (.pstr s) => s
  | some v => reprStr v
  | none => default

def dictFields : PyObj → List (String × PyObj)
  | .pdict fs => fs
  | _ => []

def eqBar : String := ⟨List.replicate 60 '='⟩

def dashBar : String := ⟨List.replicate 60 '-'⟩

def truncationMarker : String := "  ... (diff truncated)"

/-- The per-change block of output lines (tools/approval.py lines 140-160),
for the change at 1-based index `i`. -/
def changeBlockLines (i : Nat) (fs : List (String × PyObj)) : List String :=
  let file_path := pyFieldStr fs "file" "Unknown file"
  let description := pyFieldStr fs "description" "No description"
  let diff := pyFieldStr fs "diff" ""
  ["", toString i ++ ". " ++ file_path, "   " ++ description, dashBar]
    ++ ((pySplitNl diff).take 20).map (fun l => "  " ++ l)
    ++ (if 20 < (pySplitNl diff).length then [truncationMarker] else [])
    ++ [dashBar]

def changeBlocksFrom (i : Nat) : List PyObj → List String
  | [] => []
  | c :: rest => changeBlockLines i (dictFields c) ++ changeBlocksFrom (i + 1) rest

def format_changes_lines (changes : List PyObj) : List String :=
  [eqBar, "PROPOSED MODIFICATIONS", eqBar]
    ++ changeBlocksFrom 1 changes
    ++ ["", "Type 'approve' to apply these changes", "Type 'reject' to cancel",
        "Or describe requested changes", eqBar]

def format_changes_for_display (changes : List PyObj) : String :=
  if changes.isEmpty then "No changes pending."
  else "\n".intercalate (format_changes_lines changes)


/-! ## Diff/Change Builder (`generate_unified_diff`, tools/approval.py lines
49-77) and the `difflib` machinery it wraps

`generate_unified_diff` splits both texts with `str.splitlines(keepends=True)`,
appends a final `'\n'` to the last line of either side when it is missing, and
joins the output of `difflib.unified_diff(..., fromfile="a/"+name,
tofile="b/"+name, lineterm='\n')`.  The embedding below reproduces
`difflib.SequenceMatcher` (as instantiated by `unified_diff`: `isjunk=None`,
`autojunk=True`), `get_matching_blocks`, `get_opcodes`,
`get_grouped_opcodes(3)` and the unified-diff rendering, working over lines
represented as `List Char`. -/

/-- A text line (Python string slice), kept with its terminator. -/
abbrev Line := List Char

/-- The line-boundary characters of Python `str.splitlines`. -/
def pyIsLineBreak (c : Char) : Bool :=
  c = '\n' || c = '\x0d' || c = '\x0b' || c = '\x0c' || c = '\x1c'
    || c = '\x1d' || c = '\x1e' || c = '\x85' || c = ' ' || c = ' '

/-- `str.splitlines(keepends=True)` over the character list; `"\x0d\n"` counts
as a single boundary. -/
def splitLinesAux (acc : List Char) : List Char → List Line
  | [] => if acc.isEmpty then [] else [acc.reverse]
  | [c] =>
    if pyIsLineBreak c then [acc.reverse ++ [c]] else [(c :: acc).reverse]
  | c :: c2 :: rest =>
    if c = '\x0d' ∧ c2 = '\n' then
      (acc.reverse ++ ['\x0d', '\n']) :: splitLinesAux [] rest
    else if pyIsLineBreak c then
      (acc.reverse ++ [c]) :: splitLinesAux [] (c2 :: rest)
    else splitLinesAux (c :: acc) (c2 :: rest)

def pySplitLinesKE (s : String) : List Line := splitLinesAux [] s.data

def endsWithNl (l : Line) : Bool :=
  match l.getLast? with
  | some '\n' => true
  | _ => false

/-- The trailing-newline normalization at tools/approval.py lines 63-67:
append `'\n'` to the last line when it does not end with one. -/
def normLines : List Line → List Line
  | [] => []
  | [l] => if endsWithNl l then [l] else [l ++ ['\n']]
  | l :: rest => l :: normLines rest

/-- `ls[i1:i2]`. -/
def lslice (ls : List Line) (i1 i2 : Nat) : List Line :=
  (ls.drop i1).take (i2 - i1)

/-- `a[i] == b[j]` on optional lookups; false when either side is absent. -/
def lineEq? (x y : Option Line) : Bool :=
  match x, y with
  | some l, some l' => l = l'
  | _, _ => false

/-! ### Decimal rendering and reading (hunk headers) -/

def natToDecAux : Nat → Nat → List Char
  | 0, _ => []
  | fuel + 1, n =>
    if n < 10 then [Char.ofNat (48 + n)]
    else natToDecAux fuel (n / 10) ++ [Char.ofNat (48 + n % 10)]

/-- Decimal digits of `n`, most significant first (Python `str(n)` for a
non-negative int). -/
def natToDec (n : Nat) : List Char := natToDecAux (n + 1) n

/-- Read a maximal run of decimal digits (the patcher's number reader). -/
def decToNatAux (acc : Nat) : List Char → Nat × List Char
  | [] => (acc, [])
  | c :: rest =>
    if c.isDigit then decToNatAux (acc * 10 + (c.toNat - 48)) rest
    else (acc, c :: rest)

/-! ### Opcodes -/

inductive Tag where
  | equal
  | replace
  | delete
  | insert
  deriving Repr, DecidableEq

structure Op where
  tag : Tag
  i1 : Nat
  i2 : Nat
  j1 : Nat
  j2 : Nat
  deriving Repr, DecidableEq

/-! ### `SequenceMatcher` (difflib), as instantiated by `unified_diff`:
`SequenceMatcher(None, a, b)` — `isjunk=None` (so `bjunk` is empty and the
two junk-extension loops of `find_longest_match` never fire; they are
omitted), `autojunk=True` (the popular-element purge of `__chain_b` is
kept). -/

/-- `b2j.setdefault(elt, []).append(i)`. -/
def assocAppend (m : List (Line × List Nat)) (k : Line) (i : Nat) :
    List (Line × List Nat) :=
  match m with
  | [] => [(k, [i])]
  | (k1, v) :: rest =>
    if k1 = k then (k1, v ++ [i]) :: rest else (k1, v) :: assocAppend rest k i

def b2jBuildAux (i : Nat) : List Line → List (Line × List Nat) → List (Line × List Nat)
  | [], m => m
  | l :: rest, m => b2jBuildAux (i + 1) rest (assocAppend m l i)

/-- `b2j` before the autojunk purge: element ↦ ascending list of its indices
in `b`. -/
def b2jRaw (b : List Line) : List (Line × List Nat) := b2jBuildAux 0 b []

/-- `__chain_b` with `isjunk=None`: only the popular purge applies, and only
when `len(b) >= 200`. -/
def b2j (b : List Line) : List (Line × List Nat) :=
  let raw := b2jRaw b
  if 200 ≤ b.length then
    raw.filter fun kv => decide (kv.2.length ≤ b.length / 100 + 1)
  else raw

/-- `b2j.get(elt, [])`. -/
def assocGet (m : List (Line × List Nat)) (k : Line) : List Nat :=
  match m with
  | [] => []
  | (k1, v) :: rest => if k1 = k then v else assocGet rest k

/-- `j2len.get(j, 0)`. -/
def natGet (m : List (Nat × Nat)) (k : Nat) : Nat :=
  match m with
  | [] => 0
  | (k1, v) :: rest => if k1 = k then v else natGet rest k

/-- `a[i]` under the in-bounds contract of `find_longest_match`. -/
def lineAt (ls : List Line) (i : Nat) : Line := (ls.get? i).getD []

/-- The inner `for j in b2j.get(a[i], nothing)` loop of `find_longest_match`
(difflib.py): `j < blo` is `continue`, `j >= bhi` is `break` (the index lists
are ascending), `k = newj2len[j] = j2len.get(j-1, 0) + 1` (in Python `j-1` is
`-1` when `j = 0`, a missing key), and the best triple is replaced whenever
`k > bestsize`.  Returns the new dict and the best triple. -/
def innerLoop (blo bhi i : Nat) (j2len : List (Nat × Nat)) :
    List Nat → List (Nat × Nat) → (Nat × Nat × Nat) →
      List (Nat × Nat) × (Nat × Nat × Nat)
  | [], newj2len, best => (newj2len, best)
  | j :: js, newj2len, best =>
    if j < blo then innerLoop blo bhi i j2len js newj2len best
    else if bhi ≤ j then (newj2len, best)
    else
      let k := (if j = 0 then 0 else natGet j2len (j - 1)) + 1
      let best1 := if best.2.2 < k then (i + 1 - k, j + 1 - k, k) else best
      innerLoop blo bhi i j2len js ((j, k) :: newj2len) best1

/-- The outer `for i in range(alo, ahi)` loop; `steps = ahi - alo`. -/
def outerLoop (b2jm : List (Line × List Nat)) (a : List Line) (blo bhi : Nat) :
    Nat → Nat → List (Nat × Nat) → (Nat × Nat × Nat) → (Nat × Nat × Nat)
  | _, 0, _, best => best
  | i, steps + 1, j2len, best =>
    let p := innerLoop blo bhi i j2len (assocGet b2jm (lineAt a i)) [] best
    outerLoop b2jm a blo bhi (i + 1) steps p.1 p.2

/-- First extension loop: `while besti > alo and bestj > blo and
a[besti-1] == b[bestj-1]` (the junk test is vacuous).  Fuel bounds the
iteration count; `besti` decreases each step, so `besti` is enough fuel. -/
def extendLeft (a b : List Line) (alo blo : Nat) :
    Nat → (Nat × Nat × Nat) → (Nat × Nat × Nat)
  | 0, best => best
  | fuel + 1, (besti, bestj, bestsize) =>
    if alo < besti && blo < bestj
        && lineEq? (a.get? (besti - 1)) (b.get? (bestj - 1)) then
      extendLeft a b alo blo fuel (besti - 1, bestj - 1, bestsize + 1)
    else (besti, bestj, bestsize)

/-- Second extension loop: `while besti+bestsize < ahi and bestj+bestsize <
bhi and a[besti+bestsize] == b[bestj+bestsize]`.  `bhi` is enough fuel. -/
def extendRight (a b : List Line) (ahi bhi : Nat) :
    Nat → (Nat × Nat × Nat) → (Nat × Nat × Nat)
  | 0, best => best
  | fuel + 1, (besti, bestj, bestsize) =>
    if besti + bestsize < ahi && bestj + bestsize < bhi
        && lineEq? (a.get? (besti + bestsize)) (b.get? (bestj + bestsize)) then
      extendRight a b ahi bhi fuel (besti, bestj, bestsize + 1)
    else (besti, bestj, bestsize)

/-- `SequenceMatcher.find_longest_match(alo, ahi, blo, bhi)` for the junk-free
instantiation. -/
def find_longest_match (a b : List Line) (alo ahi blo bhi : Nat) :
    Nat × Nat × Nat :=
  let best := outerLoop (b2j b) a blo bhi alo (ahi - alo) [] (alo, blo, 0)
  extendRight a b ahi bhi bhi (extendLeft a b alo blo ahi best)

/-- `get_matching_blocks`, recursion step.  The source keeps an explicit
queue, popping from the back, and sorts the collected triples at the end;
popping order only permutes discovery, and the sort restores exactly the
in-order sequence this recursion emits directly.  Fuel bounds the recursion
depth: each recursive call strictly shrinks `(ahi-alo)+(bhi-blo)`, so
`la + lb + 1` is enough at the top. -/
def matchBlocksRec (a b : List Line) :
    Nat → Nat × Nat × Nat × Nat → List (Nat × Nat × Nat)
  | 0, _ => []
  | fuel + 1, (alo, ahi, blo, bhi) =>
    let t := find_longest_match a b alo ahi blo bhi
    let i := t.1
    let j := t.2.1
    let k := t.2.2
    if k = 0 then []
    else
      (if alo < i ∧ blo < j then matchBlocksRec a b fuel (alo, i, blo, j) else [])
        ++ [(i, j, k)]
        ++ (if i + k < ahi ∧ j + k < bhi then
              matchBlocksRec a b fuel (i + k, ahi, j + k, bhi)
            else [])

/-- The adjacent-block collapse of `get_matching_blocks` (difflib.py): merge
`(i1,j1,k1)` with a following `(i2,j2,k2)` when `i1+k1 == i2 and j1+k1 ==
j2`; a pending block with `k1 == 0` (the initial dummy) is not emitted. -/
def collapseAux (i1 j1 k1 : Nat) : List (Nat × Nat × Nat) → List (Nat × Nat × Nat)
  | [] => if k1 ≠ 0 then [(i1, j1, k1)] else []
  | (i2, j2, k2) :: rest =>
    if i1 + k1 = i2 ∧ j1 + k1 = j2 then collapseAux i1 j1 (k1 + k2) rest
    else (if k1 ≠ 0 then [(i1, j1, k1)] else []) ++ collapseAux i2 j2 k2 rest

/-- `SequenceMatcher.get_matching_blocks`, ending with the sentinel
`(len(a), len(b), 0)`. -/
def get_matching_blocks (a b : List Line) : List (Nat × Nat × Nat) :=
  collapseAux 0 0 0
      (matchBlocksRec a b (a.length + b.length + 1) (0, a.length, 0, b.length))
    ++ [(a.length, b.length, 0)]

/-- `SequenceMatcher.get_opcodes`, walking the matching blocks from
`i = j = 0`: a gap before a block becomes `replace`/`delete`/`insert`, and a
block of nonzero size becomes `equal`. -/
def opcodesAux (i j : Nat) : List (Nat × Nat × Nat) → List Op
  | [] => []
  | (ai, bj, size) :: rest =>
    (if i < ai ∧ j < bj then [⟨.replace, i, ai, j, bj⟩]
     else if i < ai then [⟨.delete, i, ai, j, bj⟩]
     else if j < bj then [⟨.insert, i, ai, j, bj⟩]
     else [])
      ++ (if size ≠ 0 then [⟨.equal, ai, ai + size, bj, bj + size⟩] else [])
      ++ opcodesAux (ai + size) (bj + size) rest

def get_opcodes (a b : List Line) : List Op :=
  opcodesAux 0 0 (get_matching_blocks a b)

/-! ### `get_grouped_opcodes(n)` -/

/-- Fixup of a leading `equal` opcode: keep at most `n` trailing context
lines. -/
def fixupHead (n : Nat) : List Op → List Op
  | ⟨.equal, i1, i2, j1, j2⟩ :: rest =>
    ⟨.equal, max i1 (i2 - n), i2, max j1 (j2 - n), j2⟩ :: rest
  | cs => cs

/-- Fixup of a trailing `equal` opcode: keep at most `n` leading context
lines. -/
def fixupLast (n : Nat) : List Op → List Op
  | [] => []
  | [op] =>
    match op with
    | ⟨.equal, i1, i2, j1, j2⟩ => [⟨.equal, i1, min i2 (i1 + n), j1, min j2 (j1 + n)⟩]
    | other => [other]
  | op :: rest => op :: fixupLast n rest

def groupIsSingleEqual (g : List Op) : Bool :=
  match g with
  | [op] => op.tag = Tag.equal
  | _ => false

/-- The grouping loop of `get_grouped_opcodes`: an `equal` opcode wider than
`2n` closes the current group (keeping `n` lines of leading context) and
opens the next one (keeping `n` lines of trailing context); the final group
is emitted unless it is a single `equal` opcode. -/
def groupLoop (n : Nat) : List Op → List Op → List (List Op) → List (List Op)
  | [], group, acc =>
    acc ++ (if ¬ group.isEmpty ∧ ¬ groupIsSingleEqual group then [group] else [])
  | op :: rest, group, acc =>
    if op.tag = Tag.equal ∧ 2 * n < op.i2 - op.i1 then
      groupLoop n rest
        [⟨.equal, max op.i1 (op.i2 - n), op.i2, max op.j1 (op.j2 - n), op.j2⟩]
        (acc ++ [group ++ [⟨.equal, op.i1, min op.i2 (op.i1 + n),
                            op.j1, min op.j2 (op.j1 + n)⟩]])
    else groupLoop n rest (group ++ [op]) acc

/-- `SequenceMatcher.get_grouped_opcodes(n)`; empty opcodes are replaced by
the placeholder `("equal", 0, 1, 0, 1)` exactly as in the source (the
resulting single-`equal` group is then dropped, so the diff is empty). -/
def get_grouped_opcodes (a b : List Line) (n : Nat) : List (List Op) :=
  let codes := get_opcodes a b
  let codes := if codes.isEmpty then [⟨.equal, 0, 1, 0, 1⟩] else codes
  groupLoop n (fixupLast n (fixupHead n codes)) [] []

/-! ### Rendering (`unified_diff` with `lineterm='\n'`, empty dates) -/

/-- `_format_range_unified`. -/
def formatRange (start stop : Nat) : List Char :=
  let beginning := start + 1
  let length := stop - start
  if length = 1 then natToDec beginning
  else natToDec (if length = 0 then beginning - 1 else beginning)
    ++ [','] ++ natToDec length

/-- `'@@ -{} +{} @@{}'.format(file1_range, file2_range, lineterm)`. -/
def hunkHeader (i1 i2 j1 j2 : Nat) : Line :=
  "@@ -".data ++ formatRange i1 i2 ++ " +".data ++ formatRange j1 j2
    ++ " @@".data ++ ['\n']

/-- The per-opcode body lines: `' '+line` for `equal` (from `a`),
`'-'+line` for `replace`/`delete` (from `a`), `'+'+line` for
`replace`/`insert` (from `b`). -/
def opLines (a b : List Line) (op : Op) : List Line :=
  match op.tag with
  | .equal => (lslice a op.i1 op.i2).map (fun l => ' ' :: l)
  | .replace => (lslice a op.i1 op.i2).map (fun l => '-' :: l)
      ++ (lslice b op.j1 op.j2).map (fun l => '+' :: l)
  | .delete => (lslice a op.i1 op.i2).map (fun l => '-' :: l)
  | .insert => (lslice b op.j1 op.j2).map (fun l => '+' :: l)

/-- One hunk: the `@@` header built from the first and last opcode of the
group, then the body lines. -/
def hunkLines (a b : List Line) (g : List Op) : List Line :=
  match g with
  | [] => []
  | first :: _ =>
    hunkHeader first.i1 (g.getLastD first).i2 first.j1 (g.getLastD first).j2
      :: (g.map (opLines a b)).flatten

/-- `difflib.unified_diff(a, b, fromfile, tofile, lineterm='\n')`: the two
header lines are emitted only when at least one group exists. -/
def unified_diff_lines (a b : List Line) (fromfile tofile : Line) : List Line :=
  let groups := get_grouped_opcodes a b 3
  if groups.isEmpty then []
  else ("--- ".data ++ fromfile ++ ['\n']) :: ("+++ ".data ++ tofile ++ ['\n'])
    :: (groups.map (hunkLines a b)).flatten

/-- `generate_unified_diff` (tools/approval.py lines 49-77): splitlines with
keepends, trailing-newline normalization on both sides, `unified_diff` with
`a/<name>` and `b/<name>` headers, joined with `''.join`. -/
def generate_unified_diff (original modified filename : String) : String :=
  let original_lines := normLines (pySplitLinesKE original)
  let modified_lines := normLines (pySplitLinesKE modified)
  ⟨(unified_diff_lines original_lines modified_lines
      ("a/".data ++ filename.data) ("b/".data ++ filename.data)).flatten⟩

/-! ### Applying a unified diff

Modelled from the spec: the spec's round-trip property speaks of "applying"
the produced diff to the original text (`build_diff(A, B, L)` applied to
`A`); the repository ships no patch routine, so the standard unified-diff
application is modelled here: skip the `---`/`+++` header lines, then for
each `@@` hunk copy the source lines up to the hunk position, check every
context (`' '`) and deletion (`'-'`) line against the source, and emit
context and addition (`'+'`) lines; any mismatch fails. -/

def isBodyLine (l : Line) : Bool :=
  match l with
  | c :: _ => c = ' ' || c = '-' || c = '+'
  | [] => false

/-- Read `"start"` or `"start,length"`; a bare start means length 1.  Returns
the printed number, the length and the remaining characters. -/
def parseRange (cs : List Char) : Option (Nat × Nat × List Char) :=
  match cs with
  | [] => none
  | c :: _ =>
    if c.isDigit then
      let p := decToNatAux 0 cs
      match p.2 with
      | ',' :: r3 =>
        match r3 with
        | d :: _ =>
          if d.isDigit then
            let q := decToNatAux 0 r3
            some (p.1, q.1, q.2)
          else none
        | [] => none
      | _ => some (p.1, 1, p.2)
    else none

/-- Parse `"@@ -R1 +R2 @@\n"`; the printed start is 1-based unless the range
is empty.  Returns `(astart, alen, bstart, blen)` as 0-based positions. -/
def parseHeader (l : Line) : Option (Nat × Nat × Nat × Nat) := do
  let r1 ← expectChars "@@ -".data l
  let (m1, len1, r2) ← parseRange r1
  let r3 ← expectChars " +".data r2
  let (m2, len2, r4) ← parseRange r3
  let _ ← expectChars " @@".data r4
  pure ((if len1 = 0 then m1 else m1 - 1), len1,
        (if len2 = 0 then m2 else m2 - 1), len2)

/-- Apply one hunk body at position `pos` of the source lines: context and
deletion lines must match the source; the output collects context and
addition lines.  Returns the output block and the next source position. -/
def applyHunkBody (als : List Line) : Nat → List Line → Option (List Line × Nat)
  | pos, [] => some ([], pos)
  | pos, l :: body =>
    match l with
    | [] => none
    | c :: content =>
      if c = ' ' then
        if als.get? pos = some content then
          (applyHunkBody als (pos + 1) body).map fun p => (content :: p.1, p.2)
        else none
      else if c = '-' then
        if als.get? pos = some content then applyHunkBody als (pos + 1) body
        else none
      else if c = '+' then
        (applyHunkBody als pos body).map fun p => (content :: p.1, p.2)
      else none

/-- Walk the hunks: parse a header, copy the source up to its position, apply
its body, continue; the leftover source is copied at the end.  Fuel is the
number of remaining diff lines (one header line is consumed per step). -/
def patchRun (als : List Line) : Nat → Nat → List Line → Option (List Line)
  | _, pos, [] => some (als.drop pos)
  | 0, _, _ :: _ => none
  | fuel + 1, pos, l :: rest =>
    match parseHeader l with
    | none => none
    | some (astart, _, _, _) =>
      if pos ≤ astart then
        match applyHunkBody als astart (rest.takeWhile isBodyLine) with
        | some (out, newpos) =>
          (patchRun als fuel newpos (rest.dropWhile isBodyLine)).map
            fun tl => lslice als pos astart ++ out ++ tl
        | none => none
      else none

/-- Apply a unified-diff string to a source text. -/
def applyUnifiedDiff (diff source : String) : Option String :=
  let als := splitLinesAux [] source.data
  let rest := (splitLinesAux [] diff.data).dropWhile
    fun l => decide (¬ l.take 4 = "@@ -".data)
  (patchRun als rest.length 0 rest).map fun out => ⟨out.flatten⟩

/-- The trailing-newline normalization at text level: mirrors what
`normLines` does to the last line of a text whose only line-break character
is `'\n'`. -/
def normalizeTrailingNewline (s : String) : String :=
  if s.data.getLast? = some '\n' ∨ s.data = [] then s else ⟨s.data ++ ['\n']⟩

/-! ### Specification predicates for the matcher and the diff pipeline -/

/-- A junk-free match of length `l` ending at `a[i]`, `b[j]`, inside the
window `[alo, ·)×[blo, bhi)`: the invariant of the `j2len` dictionaries. -/
def MEnd (a b : List Line) (alo blo bhi i j l : Nat) : Prop :=
  1 ≤ l ∧ alo + l ≤ i + 1 ∧ blo + l ≤ j + 1 ∧ j < bhi ∧
  ∀ m, m < l → a.get? (i - m) = b.get? (j - m)

/-- Soundness of a candidate triple `(besti, bestj, bestsize)` for the window
`[alo, ahi)×[blo, bhi)`: in bounds with pointwise-equal segments. -/
def BestOK (a b : List Line) (alo ahi blo bhi : Nat) (t : Nat × Nat × Nat) : Prop :=
  alo ≤ t.1 ∧ blo ≤ t.2.1 ∧ t.1 + t.2.2 ≤ ahi ∧ t.2.1 + t.2.2 ≤ bhi ∧
  ∀ m, m < t.2.2 → a.get? (t.1 + m) = b.get? (t.2.1 + m)

/-- A sound, ordered sequence of matching blocks inside
`[lo, hi)×[lo2, hi2)`: each block is in range, blocks are chained
left-to-right in both sequences, and each block's segments agree
pointwise. -/
def ChainOK (a b : List Line) : Nat → Nat → Nat → Nat → List (Nat × Nat × Nat) → Prop
  | _, _, _, _, [] => True
  | lo, hi, lo2, hi2, (i, j, k) :: rest =>
    lo ≤ i ∧ lo2 ≤ j ∧ i + k ≤ hi ∧ j + k ≤ hi2 ∧
    (∀ m, m < k → a.get? (i + m) = b.get? (j + m)) ∧
    ChainOK a b (i + k) hi (j + k) hi2 rest

/-- End position of a walk along matching blocks. -/
def blocksEnd (i j : Nat) : List (Nat × Nat × Nat) → Nat × Nat
  | [] => (i, j)
  | (ai, bj, s) :: rest => blocksEnd (ai + s) (bj + s) rest

/-- The opcode-chain property: consecutive opcodes tile `a` and `b` from
`(i, j)` to `(iEnd, jEnd)`, and `equal` opcodes carry equal slices. -/
def OpsChain (a b : List Line) : Nat → Nat → Nat → Nat → List Op → Prop
  | i, j, iEnd, jEnd, [] => i = iEnd ∧ j = jEnd
  | i, j, iEnd, jEnd, op :: rest =>
    op.i1 = i ∧ op.j1 = j ∧ i ≤ op.i2 ∧ j ≤ op.j2 ∧
    op.i2 ≤ a.length ∧ op.j2 ≤ b.length ∧
    (op.tag = Tag.equal → op.i2 - op.i1 = op.j2 - op.j1 ∧
      lslice a op.i1 op.i2 = lslice b op.j1 op.j2) ∧
    (op.tag = Tag.delete → op.j1 = op.j2) ∧
    (op.tag = Tag.insert → op.i1 = op.i2) ∧
    OpsChain a b op.i2 op.j2 iEnd jEnd rest

/-- The contract the grouping stage delivers to the patcher: from positions
`(pA, pB)` on, the groups appear in order; the region before each group (and
after the last) is an equal-content region of the two sides with aligned
widths, and each group is a nonempty opcode chain. -/
def LinkedGroups (a b : List Line) : Nat → Nat → List (List Op) → Prop
  | pA, pB, [] =>
    pA ≤ a.length ∧ pB ≤ b.length ∧ a.length - pA = b.length - pB ∧
    lslice a pA a.length = lslice b pB b.length
  | pA, pB, g :: gs =>
    ∃ s e t u,
      g ≠ [] ∧ OpsChain a b s t e u g ∧
      pA ≤ s ∧ pB ≤ t ∧ s - pA = t - pB ∧
      lslice a pA s = lslice b pB t ∧
      LinkedGroups a b e u gs

/-- No line-break character occurs in `l`. -/
def BreakFree (l : List Char) : Prop := ∀ c ∈ l, pyIsLineBreak c = false

/-- A complete `'\n'`-terminated line with no other break character. -/
def CleanLine (l : Line) : Prop := ∃ init, l = init ++ ['\n'] ∧ BreakFree init

/-- Every character of the text that is a line break is a plain `'\n'`. -/
def OnlyLF (s : String) : Prop :=
  ∀ c ∈ s.data, pyIsLineBreak c = true → c = '\n'

/-- `normalizeTrailingNewline` at the character-list level. -/
def normText (t : List Char) : List Char :=
  if t.getLast? = some '\n' ∨ t = [] then t else t ++ ['\n']

/-! ## Concrete demonstration states

Named inputs used by witnesses and counterexamples below. -/

def planOne : List PyObj := [PyObj.pdict [("diff", PyObj.pstr "d")]]

/-- A session with the modification gate awaiting, a plan of length one, and
a given latest human reply. -/
def stGateDemo (reply : String) : AgentState :=
  { create_initial_state none none with
      awaiting_modification_approval := true
      pending_changes := planOne
      messages := [Msg.human reply] }

/-- The same session with the push gate additionally awaiting. -/
def stBothGates (reply : String) : AgentState :=
  { stGateDemo reply with awaiting_push_approval := true }

/-- A Pending-Change shaped tool payload, as emitted by
`modify_python_code` (tools/python_coding.py lines 68-75). -/
def diffDictDemo : PyObj :=
  .pdict [("file", .pstr "utils.py"), ("original", .pstr "x = 1\n"),
          ("modified", .pstr "y = 1\n"),
          ("diff", .pstr "--- a/utils.py\n+++ b/utils.py\n"),
          ("description", .pstr "Rename x to y")]

/-- A tool-execution oracle that answers every call with `diffDictDemo`. -/
def execDiffDemo : ToolCall → PyObj := fun _ => diffDictDemo

/-- A fresh session whose assistant turn requests one `modify_python_code`
call. -/
def stModifyTurn : AgentState :=
  { create_initial_state none none with
      messages := [Msg.human "rename x to y in utils.py",
                   Msg.ai "" [⟨"modify_python_code", "call1"⟩]] }

/-- A fresh session whose assistant turn requests one `read_file` call — a
tool outside the modification set. -/
def stReadTurn : AgentState :=
  { create_initial_state none none with
      messages := [Msg.ai "" [⟨"read_file", "call1"⟩]] }

/-- A tool body that always raises. -/
def failTool : Unit → Except String PyObj := fun _ => .error "boom"

def tcFail : ToolCall := ⟨"read_file", "call9"⟩

def execFail : ToolCall → PyObj := fun _ => safe_tool "read_file" failTool ()

def stFailTurn : AgentState :=
  { create_initial_state none none with messages := [Msg.ai "" [tcFail]] }

/-- A diff with 25 newline-separated pieces (no digit appears anywhere in
the payload), so the display truncates after 20 and omits 5 lines. -/
def diff25 : String := ⟨(List.replicate 24 ['x', '\n']).flatten ++ ['x']⟩

def c9Change : PyObj :=
  .pdict [("file", .pstr "a.py"), ("description", .pstr "tweak"),
          ("diff", .pstr diff25)]

/-! ## Claim theorems -/

/-- C2: with the modification gate awaiting and the latest human message
normalizing into the reject vocabulary, `approval_check_node` sets
`modification_approved` to false, clears `awaiting_modification_approval`,
and empties the pending-change plan; nothing else in the state changes. -/
theorem claim2_reject_clears_plan (st : AgentState) (u : String)
    (hawait : st.awaiting_modification_approval = true)
    (hlast : lastHumanRaw st.messages = some u)
    (hrej : pyNorm u ∈ modificationRejectVocab) :
    approval_check_node st =
      { st with modification_approved := false
                awaiting_modification_approval := false
                pending_changes := [] } := by
  have hrej' : pyNorm u = "reject" ∨ pyNorm u = "no" ∨ pyNorm u = "cancel"
      ∨ pyNorm u = "abort" := by
    simpa [modificationRejectVocab] using hrej
  have happ : pyNorm u ∉ modificationApproveVocab := by
    rcases hrej' with h | h | h | h <;> rw [h] <;> decide
  have hne : ¬(pyNorm u = "") := by
    rcases hrej' with h | h | h | h <;> rw [h] <;> decide
  unfold approval_check_node
  rw [hlast]
  simp [hawait, happ, hrej, hne]

/-- C2 witness: scenario 3 at a concrete state — gate awaiting, plan of
length 1, human replies "reject". -/
theorem claim2_witness :
    approval_check_node (stGateDemo "reject") =
      { stGateDemo "reject" with
          modification_approved := false
          awaiting_modification_approval := false
          pending_changes := [] } :=
  claim2_reject_clears_plan _ "reject" rfl rfl (by decide)

/-- C3: with the modification gate awaiting and the latest human message
normalizing into the approve vocabulary, `approval_check_node` sets
`modification_approved` and clears `awaiting_modification_approval`; the
record equality shows every other field — in particular the pending-change
plan and the modelled working tree `fs` — is untouched, so the gate performs
no file I/O. -/
theorem claim3_approve_keeps_plan (st : AgentState) (u : String)
    (hawait : st.awaiting_modification_approval = true)
    (hlast : lastHumanRaw st.messages = some u)
    (happ : pyNorm u ∈ modificationApproveVocab) :
    approval_check_node st =
      { st with modification_approved := true
                awaiting_modification_approval := false } := by
  have happ' : pyNorm u = "approve" ∨ pyNorm u = "yes" ∨ pyNorm u = "proceed"
      ∨ pyNorm u = "ok" ∨ pyNorm u = "go ahead" ∨ pyNorm u = "lgtm" := by
    simpa [modificationApproveVocab] using happ
  have hne : ¬(pyNorm u = "") := by
    rcases happ' with h | h | h | h | h | h <;> rw [h] <;> decide
  unfold approval_check_node
  rw [hlast]
  simp [hawait, happ, hne]

/-- C3 witness: scenario 2 at a concrete state — gate awaiting, plan of
length 1, human replies "approve"; the plan survives. -/
theorem claim3_witness :
    approval_check_node (stGateDemo "approve") =
      { stGateDemo "approve" with
          modification_approved := true
          awaiting_modification_approval := false }
    ∧ (approval_check_node (stGateDemo "approve")).pending_changes = planOne :=
  ⟨claim3_approve_keeps_plan (stGateDemo "approve") "approve" rfl rfl (by decide), rfl⟩

/-- C10: when both gates are awaiting and the (normalized) human reply is one
of the tokens shared by the two approve vocabularies, `approval_check_node`
resolves only the modification gate; the push gate is still awaiting and
`push_approved` is untouched, as the record equality shows. -/
theorem claim10_modification_gate_wins (st : AgentState) (u : String)
    (hmod : st.awaiting_modification_approval = true)
    (hpush : st.awaiting_push_approval = true)
    (hlast : lastHumanRaw st.messages = some u)
    (hshared : pyNorm u ∈ (["yes", "proceed", "ok", "go ahead"] : List String)) :
    approval_check_node st =
      { st with modification_approved := true
                awaiting_modification_approval := false }
    ∧ (approval_check_node st).awaiting_push_approval = true := by
  have h' : pyNorm u = "yes" ∨ pyNorm u = "proceed" ∨ pyNorm u = "ok"
      ∨ pyNorm u = "go ahead" := by simpa using hshared
  have happ : pyNorm u ∈ modificationApproveVocab := by
    rcases h' with h | h | h | h <;> rw [h] <;> decide
  have hne : ¬(pyNorm u = "") := by
    rcases h' with h | h | h | h <;> rw [h] <;> decide
  have hmain : approval_check_node st =
      { st with modification_approved := true
                awaiting_modification_approval := false } := by
    unfold approval_check_node
    rw [hlast]
    simp [hmod, happ, hne]
  exact ⟨hmain, by rw [hmain]; exact hpush⟩

/-- C10 witness: both gates awaiting, human replies "yes"; only the
modification gate resolves. -/
theorem claim10_witness :
    approval_check_node (stBothGates "yes") =
      { stBothGates "yes" with
          modification_approved := true
          awaiting_modification_approval := false }
    ∧ (approval_check_node (stBothGates "yes")).awaiting_push_approval = true :=
  claim10_modification_gate_wins (stBothGates "yes") "yes" rfl rfl rfl (by decide)

/-- C4 counterexample: with the gate awaiting and the reply matching neither
vocabulary, the stored feedback is the lower-cased, stripped reply, not the
verbatim utterance ("Please also update the docstring" is stored with a
lower-case "p"). -/
theorem claim4_counterexample :
    (approval_check_node (stGateDemo "Please also update the docstring")).user_feedback
      = some "please also update the docstring"
    ∧ (approval_check_node (stGateDemo "Please also update the docstring")).user_feedback
      ≠ some "Please also update the docstring" := by
  constructor
  · rfl
  · decide

/-- C4 amended: with the modification gate awaiting and the normalized reply
in neither vocabulary, the gate stays awaiting, no plan entry is removed, and
the *normalized* (lower-cased, stripped) utterance — not the verbatim one —
is stored as feedback for the next oracle turn; the record equality shows
nothing else changes.  The normalized reply must be nonempty: a reply that
normalizes to `""` trips the guard at agent.py line 410 and produces no
state change at all. -/
theorem claim4_feedback_normalized (st : AgentState) (u : String)
    (hawait : st.awaiting_modification_approval = true)
    (hlast : lastHumanRaw st.messages = some u)
    (hne : pyNorm u ≠ "")
    (happ : pyNorm u ∉ modificationApproveVocab)
    (hrej : pyNorm u ∉ modificationRejectVocab) :
    approval_check_node st = { st with user_feedback := some (pyNorm u) } := by
  unfold approval_check_node
  rw [hlast]
  simp [hawait, happ, hrej, hne]

/-- C4 witness: scenario 4 — gate stays awaiting, plan intact, feedback
recorded. -/
theorem claim4_witness :
    approval_check_node (stGateDemo "please add docs") =
      { stGateDemo "please add docs" with user_feedback := some "please add docs" }
    ∧ (approval_check_node (stGateDemo "please add docs")).awaiting_modification_approval
        = true
    ∧ (approval_check_node (stGateDemo "please add docs")).pending_changes = planOne :=
  ⟨claim4_feedback_normalized (stGateDemo "please add docs") "please add docs"
      rfl rfl (by decide) (by decide) (by decide), rfl, rfl⟩

/-- C7 counterexample: on a transcript that contains a system message away
from position 0 (the agent itself appends such context messages while a gate
is awaiting, agent.py lines 283-295), running the ensure-system-message step
twice leaves two system messages, not exactly one. -/
theorem claim7_counterexample :
    systemCount (ensure_system_message "P"
        (ensure_system_message "P" [Msg.human "hi", Msg.system "ctx"])) = 2
    ∧ systemCount (ensure_system_message "P"
        (ensure_system_message "P" [Msg.human "hi", Msg.system "ctx"])) ≠ 1 := by
  constructor
  · rfl
  · decide

/-- C7 amended: the ensure-system-message step is idempotent, always leaves a
system message at position 0, inserts nothing when the transcript already
starts with a system message, and — on a transcript containing no system
message at all — produces exactly one system message, at position 0. -/
theorem claim7_ensure_system_idempotent (c : String) (msgs : List Msg) :
    ensure_system_message c (ensure_system_message c msgs)
        = ensure_system_message c msgs
    ∧ startsWithSystem (ensure_system_message c msgs) = true
    ∧ (startsWithSystem msgs = true → ensure_system_message c msgs = msgs)
    ∧ (systemCount msgs = 0 → systemCount (ensure_system_message c msgs) = 1) := by
  match msgs with
  | [] => exact ⟨rfl, rfl, fun h => by simp [startsWithSystem] at h, fun _ => rfl⟩
  | .system s :: rest => exact ⟨rfl, rfl, fun _ => rfl, fun h => by
      simp [systemCount, Msg.isSystem] at h⟩
  | .human s :: rest =>
    refine ⟨rfl, rfl, fun h => by simp [startsWithSystem] at h, fun h => ?_⟩
    show systemCount (Msg.system c :: Msg.human s :: rest) = 1
    have hc : systemCount (Msg.system c :: Msg.human s :: rest)
        = systemCount (Msg.human s :: rest) + 1 := by
      simp [systemCount, Msg.isSystem]
    rw [hc, h]
  | .ai s tcs :: rest =>
    refine ⟨rfl, rfl, fun h => by simp [startsWithSystem] at h, fun h => ?_⟩
    show systemCount (Msg.system c :: Msg.ai s tcs :: rest) = 1
    have hc : systemCount (Msg.system c :: Msg.ai s tcs :: rest)
        = systemCount (Msg.ai s tcs :: rest) + 1 := by
      simp [systemCount, Msg.isSystem]
    rw [hc, h]
  | .tool i s :: rest =>
    refine ⟨rfl, rfl, fun h => by simp [startsWithSystem] at h, fun h => ?_⟩
    show systemCount (Msg.system c :: Msg.tool i s :: rest) = 1
    have hc : systemCount (Msg.system c :: Msg.tool i s :: rest)
        = systemCount (Msg.tool i s :: rest) + 1 := by
      simp [systemCount, Msg.isSystem]
    rw [hc, h]

/-- C7 witness: concrete run of the amended theorem on a transcript with no
system message. -/
theorem claim7_witness :
    ensure_system_message "P" (ensure_system_message "P" [Msg.human "hi"])
        = ensure_system_message "P" [Msg.human "hi"]
    ∧ systemCount (ensure_system_message "P" [Msg.human "hi"]) = 1 :=
  ⟨(claim7_ensure_system_idempotent "P" [Msg.human "hi"]).1,
   (claim7_ensure_system_idempotent "P" [Msg.human "hi"]).2.2.2 (by decide)⟩

/-- C1, evaluated at the failing input: a fresh session (gate closed, empty
plan), one `modify_python_code` call whose result carries a `diff`.  After
`tools_node`, the parsed result is in the plan — but
`awaiting_modification_approval` is still false, because the guard at
agent.py line 512 compares the mutated plan list with itself (see the comment
on `tools_node`), so the gate never opens. -/
theorem claim1_gate_never_opens :
    (tools_node execDiffDemo stModifyTurn).pending_changes = [diffDictDemo]
    ∧ (tools_node execDiffDemo stModifyTurn).awaiting_modification_approval = false :=
  ⟨rfl, rfl⟩

/-- C5 counterexample: a `read_file` result that *is* a structured object
containing a `diff` key is not routed into the plan — the `diff` key is not
the sole discriminator; the tool must also be one of the seven modification
tools (agent.py lines 490-498). -/
theorem claim5_counterexample :
    PyObj.isDictWithDiff (execDiffDemo ⟨"read_file", "call1"⟩) = true
    ∧ (tools_node execDiffDemo stReadTurn).pending_changes = [] :=
  ⟨rfl, rfl⟩

theorem findResult_of_mem (exec : ToolCall → PyObj) (calls : List ToolCall)
    (tc : ToolCall) (hmem : tc ∈ calls)
    (hnd : (calls.map ToolCall.id).Nodup) :
    findResult (calls.map fun t => Msg.tool t.id (exec t)) tc.id = some (exec tc) := by
  induction calls with
  | nil => cases hmem
  | cons t ts ih =>
    rw [List.map_cons] at hnd
    have hnd' := hnd
    rw [List.nodup_cons] at hnd'
    rcases List.mem_cons.mp hmem with h | h
    · subst h
      simp [findResult]
    · have hne : t.id ≠ tc.id := by
        intro he
        exact hnd'.1 (he ▸ List.mem_map_of_mem ToolCall.id h)
      simp [findResult, hne]
      exact ih h hnd'.2

theorem collectPending_eq (exec : ToolCall → PyObj) (calls : List ToolCall)
    (hnd : (calls.map ToolCall.id).Nodup) :
    collectPending calls (calls.map fun t => Msg.tool t.id (exec t))
      = calls.filterMap (fun tc =>
          match contentToVal (exec tc) with
          | some v =>
            if tc.name ∈ modificationTools ∧ v.isDictWithDiff = true then some v
            else none
          | none => none) := by
  unfold collectPending
  apply List.filterMap_congr
  intro tc htc
  rw [findResult_of_mem exec calls tc htc hnd]
  by_cases hname : tc.name ∈ modificationTools
  · simp only [hname, if_pos]
    cases hval : contentToVal (exec tc) with
    | none => rfl
    | some v =>
      by_cases hdiff : v.isDictWithDiff = true
      · simp [hname, hdiff]
      · simp [hname, hdiff]
  · simp [hname]
    cases contentToVal (exec tc) with
    | none => rfl
    | some v => simp [hname]

/-- C5 amended: a tool result is routed into the pending-change plan, in
request order, if and only if the requesting tool is one of the seven
modification tools *and* the result parses to a structured object containing
a `diff` key; the `diff` key alone is not sufficient. -/
theorem claim5_routing (exec : ToolCall → PyObj) (st : AgentState) (c : String)
    (calls : List ToolCall)
    (hlast : st.messages.getLast? = some (.ai c calls))
    (hne : calls.isEmpty = false)
    (hnd : (calls.map ToolCall.id).Nodup) :
    (tools_node exec st).pending_changes
      = st.pending_changes ++ calls.filterMap (fun tc =>
          match contentToVal (exec tc) with
          | some v =>
            if tc.name ∈ modificationTools ∧ v.isDictWithDiff = true then some v
            else none
          | none => none) := by
  unfold tools_node
  rw [hlast]
  simp only [hne, Bool.false_eq_true, if_false]
  rw [collectPending_eq exec calls hnd]

/-- C5 witness: the amended routing law evaluated on a concrete turn with one
`read_file` call whose result carries a `diff` key: nothing is appended. -/
theorem claim5_witness :
    (tools_node execDiffDemo stReadTurn).pending_changes
      = (stReadTurn).pending_changes ++ [] :=
  claim5_routing execDiffDemo stReadTurn "" [⟨"read_file", "call1"⟩] rfl rfl
    (by decide)

theorem jsonSkipWs_E (cs : List Char) : jsonSkipWs ('E' :: cs) = 'E' :: cs := by
  simp [jsonSkipWs, List.dropWhile_cons]

theorem parseJVal_E (fuel : Nat) (cs : List Char) :
    parseJVal (fuel + 1) ('E' :: cs) = none := by
  unfold parseJVal
  rw [jsonSkipWs_E]
  simp [(by decide : ¬ ('E' = '"')), (by decide : ¬ ('E' = 't')),
        (by decide : ¬ ('E' = 'f')), (by decide : ¬ ('E' = 'n')),
        (by decide : ¬ ('E' = '[')), (by decide : ¬ ('E' = '{')),
        (by decide : ¬ ('E' = '-')), (by decide : 'E'.isDigit = false)]

/-- The `safe_tool` error text is plain prose, so `json.loads` fails on it
and `tools_node` never mistakes it for a pending change. -/
theorem jsonLoads_error_string (name e : String) :
    jsonLoads ("Error in tool '" ++ name ++ "': " ++ e) = none := by
  unfold jsonLoads
  have h1 : ("Error in tool '" ++ name ++ "': " ++ e).data
      = "Error in tool '".data ++ name.data ++ "': ".data ++ e.data := by
    simp [String.data_append]
  have h2 : ("rror in tool '" ++ name ++ "': " ++ e).data
      = "rror in tool '".data ++ name.data ++ "': ".data ++ e.data := by
    simp [String.data_append]
  have hdata : ("Error in tool '" ++ name ++ "': " ++ e).data
      = 'E' :: ("rror in tool '" ++ name ++ "': " ++ e).data := by
    rw [h1, h2]
    rfl
  rw [hdata, parseJVal_E]

/-- C8: a tool wrapped by `safe_tool` never propagates an exception — the
invocation returns a string naming the tool and the exception — and a turn
executing such a failing tool completes with that text as the tool result
while, as the record equality shows, the gate flags (and everything else in
the session state) stay unchanged. -/
theorem claim8_safe_tool_no_propagation {α : Type} (name e : String)
    (f : α → Except String PyObj) (x : α)
    (exec : ToolCall → PyObj) (st : AgentState) (c : String) (tc : ToolCall)
    (hraise : f x = .error e)
    (hlast : st.messages.getLast? = some (.ai c [tc]))
    (hexec : exec tc = safe_tool name f x) :
    safe_tool name f x = .pstr ("Error in tool '" ++ name ++ "': " ++ e)
    ∧ tools_node exec st
      = { st with
            messages := st.messages
              ++ [Msg.tool tc.id (.pstr ("Error in tool '" ++ name ++ "': " ++ e))] } := by
  have h1 : safe_tool name f x = .pstr ("Error in tool '" ++ name ++ "': " ++ e) := by
    unfold safe_tool
    rw [hraise]
  refine ⟨h1, ?_⟩
  have hcollect :
      collectPending [tc] [Msg.tool tc.id (exec tc)] = [] := by
    unfold collectPending
    simp only [List.filterMap]
    by_cases hname : tc.name ∈ modificationTools
    · simp [hname, findResult, contentToVal, hexec, h1, jsonLoads_error_string]
    · simp [hname]
  unfold tools_node
  rw [hlast]
  simp only [List.isEmpty_cons, if_false, Bool.false_eq_true]
  rw [List.map_cons, List.map_nil, hcollect, List.append_nil, hexec, h1]

/-- C8 witness: scenario 6 at a concrete turn — `read_file` raises "boom";
the turn ends with the error text as the tool result and an otherwise
unchanged state. -/
theorem claim8_witness :
    safe_tool "read_file" failTool () = .pstr "Error in tool 'read_file': boom"
    ∧ tools_node execFail stFailTurn
      = { stFailTurn with
            messages := stFailTurn.messages
              ++ [Msg.tool tcFail.id (.pstr "Error in tool 'read_file': boom")] } :=
  claim8_safe_tool_no_propagation "read_file" "boom" failTool () execFail
    stFailTurn "" tcFail rfl rfl rfl

/-- C9 counterexample: a single pending change whose diff has 25 lines.  The
display truncates after 20 lines and omits 5, and the truncation marker is
the fixed string "  ... (diff truncated)": the rendered output contains no
character '5' at all (no other digit five occurs in the input), so the
marker cannot state the number of omitted diff lines. -/
theorem claim9_counterexample :
    20 < (pySplitNl diff25).length
    ∧ truncationMarker ∈ format_changes_lines [c9Change]
    ∧ (format_changes_for_display [c9Change]).data.contains '5' = false := by
  refine ⟨by decide, by decide, by decide⟩

/-- Every line of the block rendered for the `i`-th change (1-based index
`k + i`) is a line of `changeBlocksFrom k`. -/
theorem mem_changeBlocksFrom (changes : List PyObj) (k i : Nat)
    (hi : i < changes.length) (l : String)
    (hl : l ∈ changeBlockLines (k + i) (dictFields (changes.get ⟨i, hi⟩))) :
    l ∈ changeBlocksFrom k changes := by
  induction changes generalizing k i with
  | nil => cases hi
  | cons c rest ih =>
    cases i with
    | zero =>
      simp only [changeBlocksFrom, List.mem_append]
      exact Or.inl hl
    | succ j =>
      simp only [changeBlocksFrom, List.mem_append]
      refine Or.inr (ih (k + 1) j (Nat.lt_of_succ_lt_succ hi) ?_)
      have harr : k + 1 + j = k + (j + 1) := by omega
      rw [harr]
      exact hl

/-- C9 amended: for every non-empty change list, the display renders each
change's path, description and (first 20 lines of its) diff; when the diff
exceeds 20 lines the output carries the fixed truncation marker
"  ... (diff truncated)" — with no omitted-line count. -/
theorem claim9_display_renders_changes (changes : List PyObj) (i : Nat)
    (hne : changes.isEmpty = false) (hi : i < changes.length) :
    format_changes_for_display changes = "\n".intercalate (format_changes_lines changes)
    ∧ (toString (1 + i) ++ ". "
        ++ pyFieldStr (dictFields (changes.get ⟨i, hi⟩)) "file" "Unknown file")
        ∈ format_changes_lines changes
    ∧ ("   " ++ pyFieldStr (dictFields (changes.get ⟨i, hi⟩)) "description" "No description")
        ∈ format_changes_lines changes
    ∧ (∀ l ∈ (pySplitNl (pyFieldStr (dictFields (changes.get ⟨i, hi⟩)) "diff" "")).take 20,
        ("  " ++ l) ∈ format_changes_lines changes)
    ∧ (20 < (pySplitNl (pyFieldStr (dictFields (changes.get ⟨i, hi⟩)) "diff" "")).length →
        truncationMarker ∈ format_changes_lines changes) := by
  refine ⟨by simp [format_changes_for_display, hne], ?_, ?_, ?_, ?_⟩
  · refine List.mem_append.mpr (Or.inl (List.mem_append.mpr (Or.inr ?_)))
    refine mem_changeBlocksFrom changes 1 i hi _ ?_
    simp [changeBlockLines]
  · refine List.mem_append.mpr (Or.inl (List.mem_append.mpr (Or.inr ?_)))
    refine mem_changeBlocksFrom changes 1 i hi _ ?_
    simp [changeBlockLines]
  · intro l hlmem
    refine List.mem_append.mpr (Or.inl (List.mem_append.mpr (Or.inr ?_)))
    refine mem_changeBlocksFrom changes 1 i hi _ ?_
    have hmap : ("  " ++ l) ∈
        ((pySplitNl (pyFieldStr (dictFields (changes.get ⟨i, hi⟩)) "diff" "")).take 20).map
          (fun s => "  " ++ s) :=
      List.mem_map_of_mem _ hlmem
    simp only [changeBlockLines, List.mem_append]
    tauto
  · intro hlong
    refine List.mem_append.mpr (Or.inl (List.mem_append.mpr (Or.inr ?_)))
    refine mem_changeBlocksFrom changes 1 i hi _ ?_
    have hmark : truncationMarker ∈
        (if 20 < (pySplitNl (pyFieldStr (dictFields (changes.get ⟨i, hi⟩)) "diff" "")).length
         then [truncationMarker] else []) := by
      rw [if_pos hlong]
      exact List.mem_singleton_self _
    simp only [changeBlockLines, List.mem_append]
    tauto

/-- C9 witness: the amended display law evaluated on the concrete 25-line
diff change. -/
theorem claim9_witness :
    ("1. a.py" ∈ format_changes_lines [c9Change])
    ∧ ("   tweak" ∈ format_changes_lines [c9Change])
    ∧ (truncationMarker ∈ format_changes_lines [c9Change]) := by
  have h := claim9_display_renders_changes [c9Change] 0 rfl (by decide)
  refine ⟨?_, ?_, h.2.2.2.2 (by decide)⟩
  · have := h.2.1
    simpa using this
  · have := h.2.2.1
    simpa using this

/-! ## Toward C6: slice algebra -/

theorem lslice_nil_of_ge (l : List Line) (i1 i2 : Nat) (h : i2 ≤ i1) :
    lslice l i1 i2 = [] := by
  unfold lslice
  have : i2 - i1 = 0 := by omega
  simp [this]

theorem lslice_split (l : List Line) (i1 m i2 : Nat) (h1 : i1 ≤ m) (h2 : m ≤ i2) :
    lslice l i1 i2 = lslice l i1 m ++ lslice l m i2 := by
  unfold lslice
  have harith : i2 - i1 = (m - i1) + (i2 - m) := by omega
  rw [harith, List.take_add, List.drop_drop]
  have hm : i1 + (m - i1) = m := by omega
  rw [hm]

theorem lslice_length (l : List Line) (i1 i2 : Nat) (h1 : i1 ≤ i2) (h2 : i2 ≤ l.length) :
    (lslice l i1 i2).length = i2 - i1 := by
  unfold lslice
  rw [List.length_take, List.length_drop]
  omega

theorem lslice_get? (l : List Line) (i1 i2 m : Nat) (hm : m < i2 - i1) :
    (lslice l i1 i2).get? m = l.get? (i1 + m) := by
  unfold lslice
  rw [List.get?_take hm, List.get?_drop]

theorem lslice_full (l : List Line) : lslice l 0 l.length = l := by
  unfold lslice
  simp

/-- Pointwise matching of segments gives slice equality. -/
theorem lslice_eq_of_pointwise (a b : List Line) (i1 i2 j1 j2 : Nat)
    (hlen : i2 - i1 = j2 - j1) (hia : i1 ≤ i2) (hja : j1 ≤ j2)
    (hha : i2 ≤ a.length) (hjb : j2 ≤ b.length)
    (hpt : ∀ m, m < i2 - i1 → a.get? (i1 + m) = b.get? (j1 + m)) :
    lslice a i1 i2 = lslice b j1 j2 := by
  apply List.ext_get?
  intro m
  by_cases hm : m < i2 - i1
  · rw [lslice_get? a i1 i2 m hm, lslice_get? b j1 j2 m (by omega)]
    exact hpt m hm
  · have h1 : (lslice a i1 i2).length ≤ m := by
      rw [lslice_length a i1 i2 hia hha]; omega
    have h2 : (lslice b j1 j2).length ≤ m := by
      rw [lslice_length b j1 j2 hja hjb]; omega
    rw [List.get?_eq_none.mpr h1, List.get?_eq_none.mpr h2]

/-- A block of pointwise-equal lines read back from the left side. -/
theorem lslice_pointwise_of_eq (a b : List Line) (i1 i2 j1 j2 d : Nat)
    (heq : lslice a i1 i2 = lslice b j1 j2)
    (hd : d < i2 - i1) (hd2 : d < j2 - j1) :
    a.get? (i1 + d) = b.get? (j1 + d) := by
  have h := congrArg (fun l => List.get? l d) heq
  simp only at h
  rw [lslice_get? a i1 i2 d hd, lslice_get? b j1 j2 d hd2] at h
  exact h

/-! ## Toward C6: decimal rendering reads back -/

theorem digit_char_isDigit (k : Nat) (hk : k < 10) :
    (Char.ofNat (48 + k)).isDigit = true := by
  interval_cases k <;> decide

theorem digit_char_toNat (k : Nat) (hk : k < 10) :
    (Char.ofNat (48 + k)).toNat = 48 + k := by
  interval_cases k <;> decide

theorem natToDecAux_digits (fuel n : Nat) :
    ∀ c ∈ natToDecAux fuel n, c.isDigit = true := by
  induction fuel generalizing n with
  | zero => intro c hc; cases hc
  | succ fuel ih =>
    intro c hc
    unfold natToDecAux at hc
    by_cases h : n < 10
    · rw [if_pos h] at hc
      rcases List.mem_singleton.mp hc with rfl
      exact digit_char_isDigit n h
    · rw [if_neg h] at hc
      rcases List.mem_append.mp hc with h1 | h1
      · exact ih (n / 10) c h1
      · rcases List.mem_singleton.mp h1 with rfl
        exact digit_char_isDigit (n % 10) (Nat.mod_lt n (by omega))

theorem natToDecAux_ne_nil (fuel n : Nat) : natToDecAux (fuel + 1) n ≠ [] := by
  unfold natToDecAux
  by_cases h : n < 10
  · simp [h]
  · rw [if_neg h]
    intro hcon
    rcases List.append_eq_nil.mp hcon with ⟨_, h2⟩
    cases h2

theorem natToDecAux_val (fuel : Nat) :
    ∀ n acc, n < fuel →
      (natToDecAux fuel n).foldl (fun a c => a * 10 + (c.toNat - 48)) acc
        = acc * 10 ^ (natToDecAux fuel n).length + n := by
  induction fuel with
  | zero => intro n acc h; omega
  | succ fuel ih =>
    intro n acc h
    unfold natToDecAux
    by_cases h10 : n < 10
    · rw [if_pos h10]
      simp only [List.foldl, List.length_singleton, pow_one]
      rw [digit_char_toNat n h10]
      omega
    · rw [if_neg h10]
      rw [List.foldl_append]
      have hrec : n / 10 < fuel := by
        have := Nat.div_lt_self (by omega : 0 < n) (by omega : 1 < 10)
        omega
      rw [ih (n / 10) acc hrec]
      simp only [List.foldl, List.length_append, List.length_singleton]
      rw [digit_char_toNat (n % 10) (Nat.mod_lt n (by omega))]
      have hmod : n / 10 * 10 + n % 10 = n := by
        have := Nat.div_add_mod n 10
        omega
      rw [pow_succ]
      have hring : (acc * 10 ^ (natToDecAux fuel (n / 10)).length + n / 10) * 10
          + (48 + n % 10 - 48)
          = acc * (10 ^ (natToDecAux fuel (n / 10)).length * 10)
            + (n / 10 * 10 + n % 10) := by
        have h48 : 48 + n % 10 - 48 = n % 10 := by omega
        rw [h48]
        ring
      rw [hring, hmod]

theorem decToNatAux_digits_append (ds : List Char) :
    ∀ acc rest, (∀ c ∈ ds, c.isDigit = true) →
      decToNatAux acc (ds ++ rest)
        = decToNatAux (ds.foldl (fun a c => a * 10 + (c.toNat - 48)) acc) rest := by
  induction ds with
  | nil => intro acc rest _; rfl
  | cons c ds ih =>
    intro acc rest hds
    have hc : c.isDigit = true := hds c (List.mem_cons_self c ds)
    simp only [List.cons_append, decToNatAux, hc, if_pos]
    exact ih _ rest (fun c' hc' => hds c' (List.mem_cons_of_mem c hc'))

theorem decToNatAux_stop (acc : Nat) (rest : List Char)
    (h : ∀ c, rest.head? = some c → c.isDigit = false) :
    decToNatAux acc rest = (acc, rest) := by
  cases rest with
  | nil => rfl
  | cons c rest =>
    have := h c rfl
    simp [decToNatAux, this]

/-- Reading back the decimal rendering of `n` recovers `n` and the rest. -/
theorem decToNat_natToDec (n : Nat) (rest : List Char)
    (h : ∀ c, rest.head? = some c → c.isDigit = false) :
    decToNatAux 0 (natToDec n ++ rest) = (n, rest) := by
  unfold natToDec
  rw [decToNatAux_digits_append _ _ _ (natToDecAux_digits (n + 1) n)]
  rw [natToDecAux_val (n + 1) n 0 (by omega)]
  simpa using decToNatAux_stop n rest h

theorem expectChars_append (pat rest : List Char) :
    expectChars pat (pat ++ rest) = some rest := by
  induction pat with
  | nil => rfl
  | cons c pat ih => simp [expectChars, ih]

theorem natToDec_head_digit (n : Nat) :
    ∀ c, (natToDec n).head? = some c → c.isDigit = true := by
  intro c hc
  cases hl : natToDec n with
  | nil => rw [hl] at hc; cases hc
  | cons d ds =>
    rw [hl] at hc
    simp only [List.head?, Option.some.injEq] at hc
    subst hc
    have hmem : d ∈ natToDec n := by
      rw [hl]
      exact List.mem_cons_self d ds
    exact natToDecAux_digits (n + 1) n d hmem

theorem natToDec_ne_nil (n : Nat) : natToDec n ≠ [] :=
  natToDecAux_ne_nil n n

/-- `parseRange` on a bare decimal followed by a space. -/
theorem parseRange_single (n : Nat) (r : List Char) :
    parseRange (natToDec n ++ (' ' :: r)) = some (n, 1, ' ' :: r) := by
  cases hds : natToDec n with
  | nil => exact absurd hds (natToDec_ne_nil n)
  | cons c cs =>
    have hcd : c.isDigit = true := by
      apply natToDec_head_digit n
      rw [hds]
      rfl
    have hval := decToNat_natToDec n (' ' :: r)
      (by
        intro c' hc'
        simp only [List.head?, Option.some.injEq] at hc'
        rw [← hc']
        decide)
    rw [hds] at hval
    unfold parseRange
    simp only [List.cons_append, hcd, if_pos]
    simp only [List.cons_append] at hval
    rw [hval]
    rfl

/-- `parseRange` on `"\x7bn\x7d,\x7blen\x7d"` followed by a space. -/
theorem parseRange_pair (n len : Nat) (r : List Char) :
    parseRange (natToDec n ++ (',' :: (natToDec len ++ (' ' :: r))))
      = some (n, len, ' ' :: r) := by
  cases hds : natToDec n with
  | nil => exact absurd hds (natToDec_ne_nil n)
  | cons c cs =>
    have hcd : c.isDigit = true := by
      apply natToDec_head_digit n
      rw [hds]
      rfl
    have hval := decToNat_natToDec n (',' :: (natToDec len ++ (' ' :: r)))
      (by
        intro c' hc'
        simp only [List.head?, Option.some.injEq] at hc'
        rw [← hc']
        decide)
    rw [hds] at hval
    unfold parseRange
    simp only [List.cons_append, hcd, if_pos]
    simp only [List.cons_append] at hval
    rw [hval]
    cases hds2 : natToDec len with
    | nil => exact absurd hds2 (natToDec_ne_nil len)
    | cons c2 cs2 =>
      have hcd2 : c2.isDigit = true := by
        apply natToDec_head_digit len
        rw [hds2]
        rfl
      have hval2 := decToNat_natToDec len (' ' :: r)
        (by
          intro c' hc'
          simp only [List.head?, Option.some.injEq] at hc'
          rw [← hc']
          decide)
      rw [hds2] at hval2
      simp only [List.cons_append, hcd2, if_pos]
      simp only [List.cons_append] at hval2
      rw [hval2]

/-- Reading back `_format_range_unified`: recovers the printed number and the
length. -/
theorem parseRange_formatRange (s e : Nat) (r : List Char) :
    parseRange (formatRange s e ++ (' ' :: r))
      = some ((if e - s = 0 then s else s + 1), e - s, ' ' :: r) := by
  unfold formatRange
  by_cases h1 : e - s = 1
  · rw [if_pos h1, h1]
    rw [parseRange_single (s + 1) r]
    simp [h1]
  · rw [if_neg h1]
    by_cases h0 : e - s = 0
    · rw [if_pos h0]
      have harr : natToDec (s + 1 - 1) ++ [','] ++ natToDec (e - s) ++ (' ' :: r)
          = natToDec (s + 1 - 1) ++ (',' :: (natToDec (e - s) ++ (' ' :: r))) := by
        simp [List.append_assoc]
      rw [harr, parseRange_pair (s + 1 - 1) (e - s) r]
      simp [h0]
    · rw [if_neg h0]
      have harr : natToDec (s + 1) ++ [','] ++ natToDec (e - s) ++ (' ' :: r)
          = natToDec (s + 1) ++ (',' :: (natToDec (e - s) ++ (' ' :: r))) := by
        simp [List.append_assoc]
      rw [harr, parseRange_pair (s + 1) (e - s) r]
      simp [h0]

/-- Reading back a rendered hunk header recovers the group's ranges. -/
theorem parseHeader_hunkHeader (i1 i2 j1 j2 : Nat) :
    parseHeader (hunkHeader i1 i2 j1 j2) = some (i1, i2 - i1, j1, j2 - j1) := by
  unfold parseHeader hunkHeader
  have harr : "@@ -".data ++ formatRange i1 i2 ++ " +".data ++ formatRange j1 j2
      ++ " @@".data ++ ['\n']
      = "@@ -".data ++ (formatRange i1 i2
          ++ (' ' :: ('+' :: (formatRange j1 j2 ++ (' ' :: ('@' :: ('@' :: ['\n']))))))) := by
    simp [List.append_assoc]
  rw [harr, expectChars_append]
  simp only [Option.bind_eq_bind, Option.some_bind]
  rw [parseRange_formatRange i1 i2 ('+' :: (formatRange j1 j2
    ++ (' ' :: ('@' :: ('@' :: ['\n'])))))]
  simp only [Option.some_bind]
  have h2 : expectChars " +".data
      (' ' :: ('+' :: (formatRange j1 j2 ++ (' ' :: ('@' :: ('@' :: ['\n']))))))
      = some (formatRange j1 j2 ++ (' ' :: ('@' :: ('@' :: ['\n'])))) := by
    have : (' ' :: ('+' :: (formatRange j1 j2 ++ (' ' :: ('@' :: ('@' :: ['\n']))))))
        = " +".data ++ (formatRange j1 j2 ++ (' ' :: ('@' :: ('@' :: ['\n'])))) := by
      rfl
    rw [this, expectChars_append]
  rw [h2]
  simp only [Option.some_bind]
  rw [parseRange_formatRange j1 j2 ('@' :: ('@' :: ['\n']))]
  simp only [Option.some_bind]
  have h3 : expectChars " @@".data (' ' :: ('@' :: ('@' :: ['\n']))) = some ['\n'] := by
    rfl
  rw [h3]
  by_cases hia : i2 - i1 = 0 <;> by_cases hjb : j2 - j1 = 0 <;>
    simp [hia, hjb]

/-! ## Toward C6: soundness of the matcher -/

theorem assocAppend_sound (b : List Line) (k : Line) (i : Nat)
    (hk : b.get? i = some k) :
    ∀ m, (∀ p ∈ m, ∀ j ∈ p.2, b.get? j = some p.1) →
      ∀ p ∈ assocAppend m k i, ∀ j ∈ p.2, b.get? j = some p.1 := by
  intro m
  induction m with
  | nil =>
    intro _ p hp j hj
    simp only [assocAppend, List.mem_singleton] at hp
    subst hp
    simp only [List.mem_singleton] at hj
    subst hj
    exact hk
  | cons q m ih =>
    intro hm p hp j hj
    obtain ⟨k1, v⟩ := q
    simp only [assocAppend] at hp
    by_cases hkk : k1 = k
    · rw [if_pos hkk] at hp
      rcases List.mem_cons.mp hp with h | h
      · subst h
        simp only at hj
        rcases List.mem_append.mp hj with h2 | h2
        · exact hm (k1, v) (List.mem_cons_self _ _) j h2
        · rcases List.mem_singleton.mp h2 with rfl
          simpa [hkk] using hk
      · exact hm p (List.mem_cons_of_mem _ h) j hj
    · rw [if_neg hkk] at hp
      rcases List.mem_cons.mp hp with h | h
      · subst h
        exact hm _ (List.mem_cons_self _ _) j hj
      · exact ih (fun p hp => hm p (List.mem_cons_of_mem _ hp)) p h j hj

theorem b2jBuildAux_sound (b : List Line) :
    ∀ (rest : List Line) (i : Nat) (m : List (Line × List Nat)),
      (∀ p ∈ m, ∀ j ∈ p.2, b.get? j = some p.1) →
      (∀ idx, rest.get? idx = b.get? (i + idx)) →
      ∀ p ∈ b2jBuildAux i rest m, ∀ j ∈ p.2, b.get? j = some p.1 := by
  intro rest
  induction rest with
  | nil =>
    intro i m hm _ p hp
    exact hm p hp
  | cons l rest ih =>
    intro i m hm hsuffix p hp
    have hl : b.get? i = some l := by
      have := hsuffix 0
      simpa using this.symm
    exact ih (i + 1) (assocAppend m l i)
      (assocAppend_sound b l i hl m hm)
      (by
        intro idx
        have := hsuffix (idx + 1)
        simpa [Nat.add_assoc, Nat.add_comm 1 idx] using this)
      p hp

theorem b2j_sound (b : List Line) :
    ∀ p ∈ b2j b, ∀ j ∈ p.2, b.get? j = some p.1 := by
  intro p hp
  have hraw : ∀ p ∈ b2jRaw b, ∀ j ∈ p.2, b.get? j = some p.1 := by
    intro p hp
    exact b2jBuildAux_sound b b 0 [] (by intro p hp; cases hp)
      (by intro idx; simp) p hp
  unfold b2j at hp
  by_cases h200 : 200 ≤ b.length
  · rw [if_pos h200] at hp
    exact hraw p (List.mem_of_mem_filter hp)
  · rw [if_neg h200] at hp
    exact hraw p hp

theorem assocGet_sound (b : List Line) (m : List (Line × List Nat)) (k : Line)
    (hm : ∀ p ∈ m, ∀ j ∈ p.2, b.get? j = some p.1) :
    ∀ j ∈ assocGet m k, b.get? j = some k := by
  induction m with
  | nil => intro j hj; cases hj
  | cons q m ih =>
    intro j hj
    obtain ⟨k1, v⟩ := q
    simp only [assocGet] at hj
    by_cases hkk : k1 = k
    · rw [if_pos hkk] at hj
      have := hm (k1, v) (List.mem_cons_self _ _) j hj
      rwa [hkk] at this
    · rw [if_neg hkk] at hj
      exact ih (fun p hp => hm p (List.mem_cons_of_mem _ hp)) j hj

theorem innerLoop_ok (a b : List Line) (alo ahi blo bhi i : Nat) (li : Line)
    (hai : a.get? i = some li) (halo : alo ≤ i) (hiahi : i < ahi)
    (j2len : List (Nat × Nat))
    (hprev : ∀ j, 0 < natGet j2len j →
      alo < i ∧ MEnd a b alo blo bhi (i - 1) j (natGet j2len j)) :
    ∀ (js : List Nat), (∀ j ∈ js, b.get? j = some li) →
      ∀ (acc : List (Nat × Nat)),
        (∀ j, 0 < natGet acc j → MEnd a b alo blo bhi i j (natGet acc j)) →
        ∀ (best : Nat × Nat × Nat), BestOK a b alo ahi blo bhi best →
          (∀ j, 0 < natGet (innerLoop blo bhi i j2len js acc best).1 j →
            MEnd a b alo blo bhi i j (natGet (innerLoop blo bhi i j2len js acc best).1 j))
          ∧ BestOK a b alo ahi blo bhi (innerLoop blo bhi i j2len js acc best).2 := by
  intro js
  induction js with
  | nil =>
    intro _ acc hacc best hbest
    exact ⟨hacc, hbest⟩
  | cons j js ih =>
    intro hjs acc hacc best hbest
    have hbj : b.get? j = some li := hjs j (List.mem_cons_self _ _)
    have hjs' : ∀ j' ∈ js, b.get? j' = some li :=
      fun j' hj' => hjs j' (List.mem_cons_of_mem _ hj')
    by_cases h1 : j < blo
    · have hstep : innerLoop blo bhi i j2len (j :: js) acc best
          = innerLoop blo bhi i j2len js acc best := by
        simp only [innerLoop, h1, if_pos]
      rw [hstep]
      exact ih hjs' acc hacc best hbest
    · by_cases h2 : bhi ≤ j
      · have hstep : innerLoop blo bhi i j2len (j :: js) acc best = (acc, best) := by
          simp only [innerLoop, h1, h2]
          simp
        rw [hstep]
        exact ⟨hacc, hbest⟩
      · have hblo : blo ≤ j := by omega
        have hbhi : j < bhi := by omega
        set e := if j = 0 then 0 else natGet j2len (j - 1) with he
        have hMEnd : MEnd a b alo blo bhi i j (e + 1) := by
          have hbase : MEnd a b alo blo bhi i j 1 := by
            refine ⟨by omega, by omega, by omega, hbhi, ?_⟩
            intro m hm
            have hm0 : m = 0 := by omega
            subst hm0
            simp only [Nat.sub_zero]
            rw [hai, hbj]
          by_cases hj0 : j = 0
          · have he0 : e = 0 := by rw [he, if_pos hj0]
            rw [he0]
            exact hbase
          · by_cases hl0 : 0 < natGet j2len (j - 1)
            · have he' : e = natGet j2len (j - 1) := by rw [he, if_neg hj0]
              obtain ⟨haloi, hme⟩ := hprev (j - 1) hl0
              obtain ⟨h1g, h2g, h3g, h4g, h5g⟩ := hme
              rw [he']
              refine ⟨by omega, by omega, by omega, hbhi, ?_⟩
              intro m hm
              cases m with
              | zero =>
                simp only [Nat.sub_zero]
                rw [hai, hbj]
              | succ m2 =>
                have hia : i - (m2 + 1) = (i - 1) - m2 := by omega
                have hjb : j - (m2 + 1) = (j - 1) - m2 := by omega
                rw [hia, hjb]
                exact h5g m2 (by omega)
            · have he0 : e = 0 := by
                rw [he, if_neg hj0]
                omega
              rw [he0]
              exact hbase
        have hstep : innerLoop blo bhi i j2len (j :: js) acc best
            = innerLoop blo bhi i j2len js ((j, e + 1) :: acc)
                (if best.2.2 < e + 1 then (i - e, j - e, e + 1) else best) := by
          simp only [innerLoop, h1, h2]
          simp
        rw [hstep]
        obtain ⟨hm1, hm2, hm3, hm4, hm5⟩ := hMEnd
        have hacc2 : ∀ j', 0 < natGet ((j, e + 1) :: acc) j' →
            MEnd a b alo blo bhi i j' (natGet ((j, e + 1) :: acc) j') := by
          intro j' hj'
          simp only [natGet] at hj' ⊢
          by_cases hjj : j = j'
          · rw [if_pos hjj] at hj' ⊢
            rw [← hjj]
            exact ⟨hm1, hm2, hm3, hm4, hm5⟩
          · rw [if_neg hjj] at hj' ⊢
            exact hacc j' hj'
        have hbest1 : BestOK a b alo ahi blo bhi
            (if best.2.2 < e + 1 then (i - e, j - e, e + 1) else best) := by
          by_cases hlt : best.2.2 < e + 1
          · rw [if_pos hlt]
            refine ⟨?_, ?_, ?_, ?_, ?_⟩
            · show alo ≤ i - e
              omega
            · show blo ≤ j - e
              omega
            · show (i - e) + (e + 1) ≤ ahi
              omega
            · show (j - e) + (e + 1) ≤ bhi
              omega
            · intro m hm
              have hm2e : m < e + 1 := hm
              show a.get? ((i - e) + m) = b.get? ((j - e) + m)
              have hia : (i - e) + m = i - (e - m) := by omega
              have hjb : (j - e) + m = j - (e - m) := by omega
              rw [hia, hjb]
              exact hm5 (e - m) (by omega)
          · rw [if_neg hlt]
            exact hbest
        exact ih hjs' ((j, e + 1) :: acc) hacc2 _ hbest1

theorem outerLoop_ok (a b : List Line) (alo ahi blo bhi : Nat)
    (hahi : ahi ≤ a.length) :
    ∀ (steps i : Nat), i + steps = ahi → alo ≤ i →
      ∀ (j2len : List (Nat × Nat)),
        (∀ j, 0 < natGet j2len j →
          alo < i ∧ MEnd a b alo blo bhi (i - 1) j (natGet j2len j)) →
        ∀ (best : Nat × Nat × Nat), BestOK a b alo ahi blo bhi best →
          BestOK a b alo ahi blo bhi (outerLoop (b2j b) a blo bhi i steps j2len best) := by
  intro steps
  induction steps with
  | zero =>
    intro i _ _ j2len _ best hbest
    simpa [outerLoop] using hbest
  | succ steps ih =>
    intro i hsum halo j2len hprev best hbest
    have hiahi : i < ahi := by omega
    have hisome : ∃ li, a.get? i = some li := by
      have : i < a.length := by omega
      exact ⟨a.get ⟨i, this⟩, List.get?_eq_get this⟩
    obtain ⟨li, hai⟩ := hisome
    have hlineAt : lineAt a i = li := by
      unfold lineAt
      rw [hai]
      rfl
    have hjs : ∀ j ∈ assocGet (b2j b) (lineAt a i), b.get? j = some li := by
      rw [hlineAt]
      exact assocGet_sound b (b2j b) li (b2j_sound b)
    have hstep := innerLoop_ok a b alo ahi blo bhi i li hai halo hiahi j2len hprev
      (assocGet (b2j b) (lineAt a i)) hjs [] (by intro j hj; simp [natGet] at hj)
      best hbest
    simp only [outerLoop]
    exact ih (i + 1) (by omega) (by omega) _
      (by
        intro j hj
        refine ⟨by omega, ?_⟩
        have := hstep.1 j hj
        simpa using this)
      _ hstep.2

theorem bestOK_mk (a b : List Line) (alo ahi blo bhi bi bj bs : Nat) :
    BestOK a b alo ahi blo bhi (bi, bj, bs) ↔
      alo ≤ bi ∧ blo ≤ bj ∧ bi + bs ≤ ahi ∧ bj + bs ≤ bhi ∧
        ∀ m, m < bs → a.get? (bi + m) = b.get? (bj + m) := Iff.rfl

theorem extendLeft_ok (a b : List Line) (alo ahi blo bhi : Nat) :
    ∀ (fuel : Nat) (t : Nat × Nat × Nat), BestOK a b alo ahi blo bhi t →
      BestOK a b alo ahi blo bhi (extendLeft a b alo blo fuel t) := by
  intro fuel
  induction fuel with
  | zero => intro t ht; exact ht
  | succ fuel ih =>
    intro t ht
    obtain ⟨besti, bestj, bestsize⟩ := t
    rw [bestOK_mk] at ht
    obtain ⟨h1, h2, h3, h4, h5⟩ := ht
    simp only [extendLeft]
    by_cases hg : (alo < besti && blo < bestj
        && lineEq? (a.get? (besti - 1)) (b.get? (bestj - 1))) = true
    · rw [if_pos hg]
      simp only [Bool.and_eq_true, decide_eq_true_eq] at hg
      obtain ⟨⟨hga, hgb⟩, hge⟩ := hg
      apply ih
      rw [bestOK_mk]
      refine ⟨by omega, by omega, by omega, by omega, ?_⟩
      intro m hm
      cases m with
      | zero =>
        simp only [Nat.add_zero]
        unfold lineEq? at hge
        cases hx : a.get? (besti - 1) with
        | none => rw [hx] at hge; cases hge
        | some lx =>
          cases hy : b.get? (bestj - 1) with
          | none => rw [hx, hy] at hge; cases hge
          | some ly =>
            rw [hx, hy] at hge
            simp only [decide_eq_true_eq] at hge
            rw [hge]
      | succ m2 =>
        have hia : besti - 1 + (m2 + 1) = besti + m2 := by omega
        have hjb : bestj - 1 + (m2 + 1) = bestj + m2 := by omega
        rw [hia, hjb]
        exact h5 m2 (by omega)
    · rw [if_neg hg]
      rw [bestOK_mk]
      exact ⟨h1, h2, h3, h4, h5⟩

theorem extendRight_ok (a b : List Line) (alo ahi blo bhi : Nat) :
    ∀ (fuel : Nat) (t : Nat × Nat × Nat), BestOK a b alo ahi blo bhi t →
      BestOK a b alo ahi blo bhi (extendRight a b ahi bhi fuel t) := by
  intro fuel
  induction fuel with
  | zero => intro t ht; exact ht
  | succ fuel ih =>
    intro t ht
    obtain ⟨besti, bestj, bestsize⟩ := t
    rw [bestOK_mk] at ht
    obtain ⟨h1, h2, h3, h4, h5⟩ := ht
    simp only [extendRight]
    by_cases hg : (besti + bestsize < ahi && bestj + bestsize < bhi
        && lineEq? (a.get? (besti + bestsize)) (b.get? (bestj + bestsize))) = true
    · rw [if_pos hg]
      simp only [Bool.and_eq_true, decide_eq_true_eq] at hg
      obtain ⟨⟨hga, hgb⟩, hge⟩ := hg
      apply ih
      rw [bestOK_mk]
      refine ⟨h1, h2, by omega, by omega, ?_⟩
      intro m hm
      by_cases hms : m < bestsize
      · exact h5 m hms
      · have hmb : m = bestsize := by omega
        subst hmb
        unfold lineEq? at hge
        cases hx : a.get? (besti + m) with
        | none => rw [hx] at hge; cases hge
        | some lx =>
          cases hy : b.get? (bestj + m) with
          | none => rw [hx, hy] at hge; cases hge
          | some ly =>
            rw [hx, hy] at hge
            simp only [decide_eq_true_eq] at hge
            rw [hge]
    · rw [if_neg hg]
      rw [bestOK_mk]
      exact ⟨h1, h2, h3, h4, h5⟩

/-- Soundness of `find_longest_match`: the returned triple is a valid match
of the window. -/
theorem find_longest_match_ok (a b : List Line) (alo ahi blo bhi : Nat)
    (h1 : alo ≤ ahi) (h2 : blo ≤ bhi) (h3 : ahi ≤ a.length) :
    BestOK a b alo ahi blo bhi (find_longest_match a b alo ahi blo bhi) := by
  unfold find_longest_match
  apply extendRight_ok
  apply extendLeft_ok
  apply outerLoop_ok a b alo ahi blo bhi h3 (ahi - alo) alo (by omega) (le_refl alo) []
  · intro j hj
    simp [natGet] at hj
  · rw [bestOK_mk]
    refine ⟨le_refl alo, le_refl blo, by omega, by omega, ?_⟩
    intro m hm
    omega

/-! ## Toward C6: matching blocks form sound chains -/

theorem chainOK_weaken (a b : List Line) :
    ∀ (bs : List (Nat × Nat × Nat)) (lo hi lo2 hi2 lo' hi' lo2' hi2' : Nat),
      lo' ≤ lo → hi ≤ hi' → lo2' ≤ lo2 → hi2 ≤ hi2' →
      ChainOK a b lo hi lo2 hi2 bs → ChainOK a b lo' hi' lo2' hi2' bs := by
  intro bs
  induction bs with
  | nil => intro _ _ _ _ _ _ _ _ _ _ _ _ _; trivial
  | cons t rest ih =>
    intro lo hi lo2 hi2 lo' hi' lo2' hi2' w1 w2 w3 w4 hc
    obtain ⟨i, j, k⟩ := t
    obtain ⟨c1, c2, c3, c4, c5, c6⟩ := hc
    exact ⟨by omega, by omega, by omega, by omega, c5,
      ih (i + k) hi (j + k) hi2 (i + k) hi' (j + k) hi2'
        (le_refl _) w2 (le_refl _) w4 c6⟩

theorem chainOK_append (a b : List Line) :
    ∀ (xs ys : List (Nat × Nat × Nat)) (lo mid lo2 mid2 hi hi2 : Nat),
      ChainOK a b lo mid lo2 mid2 xs → ChainOK a b mid hi mid2 hi2 ys →
      lo ≤ mid → lo2 ≤ mid2 → mid ≤ hi → mid2 ≤ hi2 →
      ChainOK a b lo hi lo2 hi2 (xs ++ ys) := by
  intro xs
  induction xs with
  | nil =>
    intro ys lo mid lo2 mid2 hi hi2 _ hys h1 h2 _ _
    exact chainOK_weaken a b ys mid hi mid2 hi2 lo hi lo2 hi2 h1 (le_refl _)
      h2 (le_refl _) hys
  | cons t rest ih =>
    intro ys lo mid lo2 mid2 hi hi2 hxs hys h1 h2 h3 h4
    obtain ⟨i, j, k⟩ := t
    obtain ⟨c1, c2, c3, c4, c5, c6⟩ := hxs
    exact ⟨c1, c2, by omega, by omega, c5,
      ih ys (i + k) mid (j + k) mid2 hi hi2 c6 hys c3 c4 h3 h4⟩

theorem matchBlocksRec_chain (a b : List Line) :
    ∀ (fuel alo ahi blo bhi : Nat), alo ≤ ahi → blo ≤ bhi → ahi ≤ a.length →
      ChainOK a b alo ahi blo bhi (matchBlocksRec a b fuel (alo, ahi, blo, bhi)) := by
  intro fuel
  induction fuel with
  | zero => intro _ _ _ _ _ _ _; trivial
  | succ fuel ih =>
    intro alo ahi blo bhi h1 h2 h3
    have hbest := find_longest_match_ok a b alo ahi blo bhi h1 h2 h3
    simp only [matchBlocksRec]
    set t := find_longest_match a b alo ahi blo bhi with ht
    obtain ⟨i, j, k⟩ := t
    rw [bestOK_mk] at hbest
    obtain ⟨hb1, hb2, hb3, hb4, hb5⟩ := hbest
    by_cases hk : k = 0
    · simp only [hk, if_pos]
      trivial
    · rw [if_neg hk]
      simp only
      have hmid : ChainOK a b i ahi j bhi ([(i, j, k)]
          ++ (if i + k < ahi ∧ j + k < bhi then
                matchBlocksRec a b fuel (i + k, ahi, j + k, bhi)
              else [])) := by
        refine ⟨le_refl i, le_refl j, hb3, hb4, hb5, ?_⟩
        by_cases hg : i + k < ahi ∧ j + k < bhi
        · rw [if_pos hg]
          exact ih (i + k) ahi (j + k) bhi (by omega) (by omega) h3
        · rw [if_neg hg]
          trivial
      by_cases hgl : alo < i ∧ blo < j
      · rw [if_pos hgl, List.append_assoc]
        refine chainOK_append a b _ _ alo i blo j ahi bhi ?_ hmid hb1 hb2
          (by omega) (by omega)
        exact ih alo i blo j (by omega) (by omega) (by omega)
      · rw [if_neg hgl]
        simp only [List.nil_append]
        exact chainOK_weaken a b _ i ahi j bhi alo ahi blo bhi hb1 (le_refl _)
          hb2 (le_refl _) hmid

theorem collapseAux_chain (a b : List Line) (hi hi2 : Nat) :
    ∀ (bs : List (Nat × Nat × Nat)) (i1 j1 k1 lo lo2 : Nat),
      lo ≤ i1 → lo2 ≤ j1 → i1 + k1 ≤ hi → j1 + k1 ≤ hi2 →
      (∀ m, m < k1 → a.get? (i1 + m) = b.get? (j1 + m)) →
      ChainOK a b (i1 + k1) hi (j1 + k1) hi2 bs →
      ChainOK a b lo hi lo2 hi2 (collapseAux i1 j1 k1 bs) := by
  intro bs
  induction bs with
  | nil =>
    intro i1 j1 k1 lo lo2 w1 w2 w3 w4 hseg _
    simp only [collapseAux]
    by_cases hk : k1 ≠ 0
    · rw [if_pos hk]
      exact ⟨w1, w2, w3, w4, hseg, trivial⟩
    · rw [if_neg hk]
      trivial
  | cons t rest ih =>
    intro i1 j1 k1 lo lo2 w1 w2 w3 w4 hseg hc
    obtain ⟨i2, j2, k2⟩ := t
    obtain ⟨c1, c2, c3, c4, c5, c6⟩ := hc
    simp only [collapseAux]
    by_cases hadj : i1 + k1 = i2 ∧ j1 + k1 = j2
    · rw [if_pos hadj]
      apply ih i1 j1 (k1 + k2) lo lo2 w1 w2 (by omega) (by omega)
      · intro m hm
        by_cases hm1 : m < k1
        · exact hseg m hm1
        · have hi2m : i1 + m = i2 + (m - k1) := by omega
          have hj2m : j1 + m = j2 + (m - k1) := by omega
          rw [hi2m, hj2m]
          exact c5 (m - k1) (by omega)
      · have hie : i1 + (k1 + k2) = i2 + k2 := by omega
        have hje : j1 + (k1 + k2) = j2 + k2 := by omega
        rw [hie, hje]
        exact c6
    · rw [if_neg hadj]
      by_cases hk : k1 ≠ 0
      · rw [if_pos hk]
        refine ⟨w1, w2, w3, w4, hseg, ?_⟩
        exact ih i2 j2 k2 (i1 + k1) (j1 + k1) c1 c2 c3 c4 c5 c6
      · rw [if_neg hk]
        simp only [List.nil_append]
        exact ih i2 j2 k2 lo lo2 (by omega) (by omega) c3 c4 c5 c6

theorem get_matching_blocks_chain (a b : List Line) :
    ChainOK a b 0 a.length 0 b.length (get_matching_blocks a b) := by
  unfold get_matching_blocks
  have hblocks := matchBlocksRec_chain a b (a.length + b.length + 1)
    0 a.length 0 b.length (by omega) (by omega) (le_refl _)
  have hxs : ChainOK a b 0 a.length 0 b.length
      (collapseAux 0 0 0 (matchBlocksRec a b (a.length + b.length + 1)
        (0, a.length, 0, b.length))) := by
    apply collapseAux_chain a b a.length b.length _ 0 0 0 0 0
      (le_refl 0) (le_refl 0) (by omega) (by omega)
      (by intro m hm; omega)
    simpa using hblocks
  refine chainOK_append a b _ _ 0 a.length 0 b.length a.length b.length hxs ?_
    (by omega) (by omega) (le_refl _) (le_refl _)
  exact ⟨le_refl _, le_refl _, by omega, by omega, by intro m hm; omega, trivial⟩

/-! ## Toward C6: opcodes tile both sequences -/

theorem opsChain_append (a b : List Line) :
    ∀ (xs ys : List Op) (i j m n e u : Nat),
      OpsChain a b i j m n xs → OpsChain a b m n e u ys →
      OpsChain a b i j e u (xs ++ ys) := by
  intro xs
  induction xs with
  | nil =>
    intro ys i j m n e u hxs hys
    obtain ⟨rfl, rfl⟩ := hxs
    simpa using hys
  | cons op rest ih =>
    intro ys i j m n e u hxs hys
    obtain ⟨c1, c2, c3, c4, c5, c6, c7, c7d, c7i, c8⟩ := hxs
    exact ⟨c1, c2, c3, c4, c5, c6, c7, c7d, c7i, ih ys op.i2 op.j2 m n e u c8 hys⟩

theorem blocksEnd_cons (i j ai bj s : Nat) (rest : List (Nat × Nat × Nat)) :
    blocksEnd i j ((ai, bj, s) :: rest) = blocksEnd (ai + s) (bj + s) rest := rfl

theorem opsChain_single (a b : List Line) (tg : Tag) (i1 i2 j1 j2 : Nat)
    (h1 : i1 ≤ i2) (h2 : j1 ≤ j2) (h3 : i2 ≤ a.length) (h4 : j2 ≤ b.length)
    (heq : tg = Tag.equal → i2 - i1 = j2 - j1 ∧ lslice a i1 i2 = lslice b j1 j2)
    (hdel : tg = Tag.delete → j1 = j2) (hins : tg = Tag.insert → i1 = i2) :
    OpsChain a b i1 j1 i2 j2 [⟨tg, i1, i2, j1, j2⟩] := by
  refine ⟨rfl, rfl, ?_, ?_, ?_, ?_, ?_, ?_, ?_, rfl, rfl⟩
  · show i1 ≤ i2
    exact h1
  · show j1 ≤ j2
    exact h2
  · show i2 ≤ a.length
    exact h3
  · show j2 ≤ b.length
    exact h4
  · intro h
    have := heq h
    constructor
    · show i2 - i1 = j2 - j1
      exact this.1
    · show lslice a i1 i2 = lslice b j1 j2
      exact this.2
  · intro h
    show j1 = j2
    exact hdel h
  · intro h
    show i1 = i2
    exact hins h

theorem opcodesAux_chain (a b : List Line) :
    ∀ (bs : List (Nat × Nat × Nat)) (i j : Nat),
      ChainOK a b i a.length j b.length bs → i ≤ a.length → j ≤ b.length →
      OpsChain a b i j (blocksEnd i j bs).1 (blocksEnd i j bs).2
        (opcodesAux i j bs) := by
  intro bs
  induction bs with
  | nil =>
    intro i j _ _ _
    exact ⟨rfl, rfl⟩
  | cons t rest ih =>
    intro i j hc hia hjb
    obtain ⟨ai, bj, s⟩ := t
    obtain ⟨c1, c2, c3, c4, c5, c6⟩ := hc
    rw [blocksEnd_cons]
    simp only [opcodesAux]
    have hgap : OpsChain a b i j ai bj
        (if i < ai ∧ j < bj then [⟨Tag.replace, i, ai, j, bj⟩]
         else if i < ai then [⟨Tag.delete, i, ai, j, bj⟩]
         else if j < bj then [⟨Tag.insert, i, ai, j, bj⟩]
         else []) := by
      by_cases hg1 : i < ai ∧ j < bj
      · rw [if_pos hg1]
        exact opsChain_single a b Tag.replace i ai j bj (by omega) (by omega)
          (by omega) (by omega) (by intro h; cases h) (by intro h; cases h)
          (by intro h; cases h)
      · rw [if_neg hg1]
        by_cases hg2 : i < ai
        · rw [if_pos hg2]
          exact opsChain_single a b Tag.delete i ai j bj (by omega) (by omega)
            (by omega) (by omega) (by intro h; cases h)
            (by intro _; omega) (by intro h; cases h)
        · rw [if_neg hg2]
          by_cases hg3 : j < bj
          · rw [if_pos hg3]
            exact opsChain_single a b Tag.insert i ai j bj (by omega) (by omega)
              (by omega) (by omega) (by intro h; cases h) (by intro h; cases h)
              (by intro _; omega)
          · rw [if_neg hg3]
            exact ⟨by omega, by omega⟩
    have heqp : OpsChain a b ai bj (ai + s) (bj + s)
        (if s ≠ 0 then [⟨Tag.equal, ai, ai + s, bj, bj + s⟩] else []) := by
      by_cases hs : s ≠ 0
      · rw [if_pos hs]
        refine opsChain_single a b Tag.equal ai (ai + s) bj (bj + s) (by omega)
          (by omega) c3 c4 ?_ (by intro h; cases h) (by intro h; cases h)
        intro _
        constructor
        · omega
        · apply lslice_eq_of_pointwise a b ai (ai + s) bj (bj + s)
            (by omega) (by omega) (by omega) c3 c4
          intro m hm
          exact c5 m (by omega)
      · rw [if_neg hs]
        have hs0 : s = 0 := by omega
        exact ⟨by omega, by omega⟩
    have hrec := ih (ai + s) (bj + s) c6 c3 c4
    rw [List.append_assoc]
    exact opsChain_append a b _ _ i j ai bj _ _ hgap
      (opsChain_append a b _ _ ai bj (ai + s) (bj + s) _ _ heqp hrec)

theorem get_opcodes_chain (a b : List Line) :
    OpsChain a b 0 0 a.length b.length (get_opcodes a b) := by
  unfold get_opcodes
  have hend : blocksEnd 0 0 (get_matching_blocks a b) = (a.length, b.length) := by
    unfold get_matching_blocks
    have hgen : ∀ (xs : List (Nat × Nat × Nat)) (i j : Nat),
        blocksEnd i j (xs ++ [(a.length, b.length, 0)]) = (a.length, b.length) := by
      intro xs
      induction xs with
      | nil => intro i j; rfl
      | cons t rest ih =>
        intro i j
        obtain ⟨ai, bj, s⟩ := t
        rw [List.cons_append, blocksEnd_cons]
        exact ih (ai + s) (bj + s)
    exact hgen _ 0 0
  have := opcodesAux_chain a b (get_matching_blocks a b) 0 0
    (get_matching_blocks_chain a b) (by omega) (by omega)
  rwa [hend] at this

/-! ## Toward C6: grouping and context trimming -/

theorem lslice_sub_eq (a b : List Line) (i1 i2 j1 j2 d d' : Nat)
    (heq : lslice a i1 i2 = lslice b j1 j2) (hlen : i2 - i1 = j2 - j1)
    (hia : i1 ≤ i2) (hja : j1 ≤ j2) (hha : i2 ≤ a.length) (hjb : j2 ≤ b.length)
    (hd : d ≤ d') (hd2 : d' ≤ i2 - i1) :
    lslice a (i1 + d) (i1 + d') = lslice b (j1 + d) (j1 + d') := by
  apply lslice_eq_of_pointwise a b (i1 + d) (i1 + d') (j1 + d) (j1 + d')
    (by omega) (by omega) (by omega) (by omega) (by omega)
  intro m hm
  have h1 : i1 + d + m = i1 + (d + m) := by omega
  have h2 : j1 + d + m = j1 + (d + m) := by omega
  rw [h1, h2]
  exact lslice_pointwise_of_eq a b i1 i2 j1 j2 (d + m) heq (by omega) (by omega)

theorem opsChain_mono (a b : List Line) :
    ∀ (ops : List Op) (i j e u : Nat), OpsChain a b i j e u ops →
      i ≤ e ∧ j ≤ u := by
  intro ops
  induction ops with
  | nil =>
    intro i j e u h
    obtain ⟨rfl, rfl⟩ := h
    exact ⟨le_refl _, le_refl _⟩
  | cons op rest ih =>
    intro i j e u h
    obtain ⟨c1, c2, c3, c4, c5, c6, c7, c7d, c7i, c8⟩ := h
    have := ih op.i2 op.j2 e u c8
    omega

theorem groupLoop_acc (n : Nat) :
    ∀ (cs group : List Op) (acc : List (List Op)),
      groupLoop n cs group acc = acc ++ groupLoop n cs group [] := by
  intro cs
  induction cs with
  | nil =>
    intro group acc
    simp [groupLoop]
  | cons op rest ih =>
    intro group acc
    by_cases hsplit : op.tag = Tag.equal ∧ 2 * n < op.i2 - op.i1
    · simp only [groupLoop, if_pos hsplit]
      rw [ih _ (acc ++ _), ih _ ([] ++ _)]
      simp [List.append_assoc]
    · simp only [groupLoop, if_neg hsplit]
      exact ih _ acc

theorem groupLoop_linked (a b : List Line) (n e u : Nat)
    (he : e ≤ a.length) (hu : u ≤ b.length)
    (hoff : a.length - e = b.length - u)
    (hsuf : lslice a e a.length = lslice b u b.length) :
    ∀ (cs group : List Op) (pA pB gs gt ci cj : Nat),
      OpsChain a b ci cj e u cs →
      OpsChain a b gs gt ci cj group →
      (group = [] → gs = ci ∧ gt = cj) →
      pA ≤ gs → pB ≤ gt → gs - pA = gt - pB →
      lslice a pA gs = lslice b pB gt →
      LinkedGroups a b pA pB (groupLoop n cs group []) := by
  intro cs
  induction cs with
  | nil =>
    intro group pA pB gs gt ci cj hcs hg hemp hpa hpb hpoff hpsl
    obtain ⟨rfl, rfl⟩ := hcs
    have hmono := opsChain_mono a b group gs gt ci cj hg
    simp only [groupLoop, List.nil_append]
    by_cases hcond : ¬ group.isEmpty ∧ ¬ groupIsSingleEqual group
    · rw [if_pos hcond]
      exact ⟨gs, ci, gt, cj,
        (by
          intro hnil
          rw [hnil] at hcond
          simp at hcond),
        hg, hpa, hpb, hpoff, hpsl, he, hu, hoff, hsuf⟩
    · rw [if_neg hcond]
      -- the pending group is empty or a lone equal opcode: its region (and
      -- the prefix region before it) is equal content on both sides
      have hkey : gs ≤ ci ∧ gt ≤ cj ∧ ci - gs = cj - gt ∧
          lslice a gs ci = lslice b gt cj := by
        cases group with
        | nil =>
          obtain ⟨rfl, rfl⟩ := hemp rfl
          refine ⟨le_refl _, le_refl _, by omega, ?_⟩
          rw [lslice_nil_of_ge a gs gs (le_refl _), lslice_nil_of_ge b gt gt (le_refl _)]
        | cons op rest =>
          cases rest with
          | nil =>
            obtain ⟨c1, c2, c3, c4, c5, c6, c7, c7d, c7i, c8⟩ := hg
            obtain ⟨hend1, hend2⟩ := c8
            have htag : op.tag = Tag.equal := by
              by_contra htag
              apply hcond
              constructor
              · simp
              · simp only [groupIsSingleEqual]
                simpa using htag
            obtain ⟨hlen, hsl⟩ := c7 htag
            subst c1
            subst c2
            rw [← hend1, ← hend2]
            exact ⟨c3, c4, by omega, hsl⟩
          | cons op2 rest2 =>
            exfalso
            apply hcond
            constructor
            · simp
            · simp [groupIsSingleEqual]
      obtain ⟨hk1, hk2, hk3, hk4⟩ := hkey
      refine ⟨by omega, by omega, by omega, ?_⟩
      have hsa : lslice a pA a.length
          = lslice a pA gs ++ lslice a gs ci ++ lslice a ci a.length := by
        rw [← lslice_split a pA gs ci hpa hk1]
        exact lslice_split a pA ci a.length (by omega) (by omega)
      have hsb : lslice b pB b.length
          = lslice b pB gt ++ lslice b gt cj ++ lslice b cj b.length := by
        rw [← lslice_split b pB gt cj hpb hk2]
        exact lslice_split b pB cj b.length (by omega) (by omega)
      rw [hsa, hsb, hpsl, hk4, hsuf]
  | cons op rest ih =>
    intro group pA pB gs gt ci cj hcs hg hemp hpa hpb hpoff hpsl
    obtain ⟨c1, c2, c3, c4, c5, c6, c7, c7d, c7i, c8⟩ := hcs
    have hmono := opsChain_mono a b group gs gt ci cj hg
    have hrmono := opsChain_mono a b rest op.i2 op.j2 e u c8
    by_cases hsplit : op.tag = Tag.equal ∧ 2 * n < op.i2 - op.i1
    · obtain ⟨htag, hwide⟩ := hsplit
      obtain ⟨hlen, hsl⟩ := c7 htag
      simp only [groupLoop, if_pos (And.intro htag hwide)]
      rw [groupLoop_acc]
      have hminA : min op.i2 (op.i1 + n) = op.i1 + n := by omega
      have hminB : min op.j2 (op.j1 + n) = op.j1 + n := by omega
      have hmaxA : max op.i1 (op.i2 - n) = op.i2 - n := by omega
      have hmaxB : max op.j1 (op.j2 - n) = op.j2 - n := by omega
      rw [hminA, hminB, hmaxA, hmaxB]
      simp only [List.nil_append, List.singleton_append]
      -- the closed group: `group` extended with the head context trim
      have htrim : OpsChain a b ci cj (op.i1 + n) (op.j1 + n)
          [⟨Tag.equal, op.i1, op.i1 + n, op.j1, op.j1 + n⟩] := by
        rw [← c1, ← c2]
        apply opsChain_single a b Tag.equal op.i1 (op.i1 + n) op.j1
          (op.j1 + n) (by omega) (by omega) (by omega) (by omega)
          ?_ (by intro h; cases h) (by intro h; cases h)
        intro _
        refine ⟨by omega, ?_⟩
        have := lslice_sub_eq a b op.i1 op.i2 op.j1 op.j2 0 n hsl hlen
          (by omega) (by omega) c5 c6 (by omega) (by omega)
        simpa using this
      refine ⟨gs, op.i1 + n, gt, op.j1 + n, by simp, ?_, hpa, hpb, hpoff, hpsl, ?_⟩
      · exact opsChain_append a b group _ gs gt ci cj _ _ hg htrim
      · -- the tail: new pending group is the tail context trim of `op`
        apply ih [⟨Tag.equal, op.i2 - n, op.i2, op.j2 - n, op.j2⟩]
          (op.i1 + n) (op.j1 + n) (op.i2 - n) (op.j2 - n) op.i2 op.j2 c8
        · apply opsChain_single a b Tag.equal (op.i2 - n) op.i2 (op.j2 - n)
            op.j2 (by omega) (by omega) c5 c6 ?_ (by intro h; cases h)
            (by intro h; cases h)
          intro _
          refine ⟨by omega, ?_⟩
          have := lslice_sub_eq a b op.i1 op.i2 op.j1 op.j2
            (op.i2 - op.i1 - n) (op.i2 - op.i1) hsl hlen
            (by omega) (by omega) c5 c6 (by omega) (by omega)
          have ha1 : op.i1 + (op.i2 - op.i1 - n) = op.i2 - n := by omega
          have ha2 : op.i1 + (op.i2 - op.i1) = op.i2 := by omega
          have hb1 : op.j1 + (op.i2 - op.i1 - n) = op.j2 - n := by omega
          have hb2 : op.j1 + (op.i2 - op.i1) = op.j2 := by omega
          rw [ha1, ha2, hb1, hb2] at this
          exact this
        · intro h
          cases h
        · omega
        · omega
        · omega
        · have := lslice_sub_eq a b op.i1 op.i2 op.j1 op.j2 n
            (op.i2 - op.i1 - n) hsl hlen (by omega) (by omega) c5 c6
            (by omega) (by omega)
          have ha1 : op.i1 + n = op.i1 + n := rfl
          have ha2 : op.i1 + (op.i2 - op.i1 - n) = op.i2 - n := by omega
          have hb2 : op.j1 + (op.i2 - op.i1 - n) = op.j2 - n := by omega
          rw [ha2, hb2] at this
          exact this
    · simp only [groupLoop, if_neg hsplit]
      apply ih (group ++ [op]) pA pB gs gt op.i2 op.j2 c8
      · apply opsChain_append a b group [op] gs gt ci cj op.i2 op.j2 hg
        exact ⟨c1, c2, c3, c4, c5, c6, c7, c7d, c7i, rfl, rfl⟩
      · intro h
        rcases List.append_eq_nil.mp h with ⟨_, h2⟩
        cases h2
      · exact hpa
      · exact hpb
      · exact hpoff
      · exact hpsl

theorem lslice_end_empty (a b : List Line) :
    lslice a a.length a.length = lslice b b.length b.length := by
  rw [lslice_nil_of_ge a _ _ (le_refl _), lslice_nil_of_ge b _ _ (le_refl _)]

theorem fixupLast_chain (a b : List Line) (n : Nat) :
    ∀ (codes : List Op) (i j : Nat),
      OpsChain a b i j a.length b.length codes →
      ∃ e u, OpsChain a b i j e u (fixupLast n codes)
        ∧ e ≤ a.length ∧ u ≤ b.length ∧ a.length - e = b.length - u
        ∧ lslice a e a.length = lslice b u b.length := by
  intro codes
  induction codes with
  | nil =>
    intro i j hc
    obtain ⟨rfl, rfl⟩ := hc
    exact ⟨a.length, b.length, ⟨rfl, rfl⟩, le_refl _, le_refl _, by omega,
      lslice_end_empty a b⟩
  | cons op rest ih =>
    intro i j hc
    obtain ⟨c1, c2, c3, c4, c5, c6, c7, c7d, c7i, c8⟩ := hc
    subst c1
    subst c2
    cases rest with
    | nil =>
      obtain ⟨hend1, hend2⟩ := c8
      by_cases htag : op.tag = Tag.equal
      · obtain ⟨hlen, hsl⟩ := c7 htag
        have hshape : fixupLast n [op]
            = [⟨Tag.equal, op.i1, min op.i2 (op.i1 + n),
                op.j1, min op.j2 (op.j1 + n)⟩] := by
          obtain ⟨tg, i1, i2, j1, j2⟩ := op
          simp only at htag
          subst htag
          rfl
        rw [hshape]
        refine ⟨min op.i2 (op.i1 + n), min op.j2 (op.j1 + n), ?_, by omega,
          by omega, by omega, ?_⟩
        · apply opsChain_single a b Tag.equal op.i1 (min op.i2 (op.i1 + n))
            op.j1 (min op.j2 (op.j1 + n)) (by omega) (by omega) (by omega)
            (by omega) ?_ (by intro h; cases h) (by intro h; cases h)
          intro _
          refine ⟨by omega, ?_⟩
          have hq := lslice_sub_eq a b op.i1 op.i2 op.j1 op.j2 0
            (min (op.i2 - op.i1) n) hsl hlen (by omega) (by omega) c5 c6
            (by omega) (by omega)
          have ha : op.i1 + min (op.i2 - op.i1) n = min op.i2 (op.i1 + n) := by
            omega
          have hb : op.j1 + min (op.i2 - op.i1) n = min op.j2 (op.j1 + n) := by
            omega
          simp only [Nat.add_zero] at hq
          rw [ha, hb] at hq
          exact hq
        · have hq := lslice_sub_eq a b op.i1 op.i2 op.j1 op.j2
            (min (op.i2 - op.i1) n) (op.i2 - op.i1) hsl hlen (by omega)
            (by omega) c5 c6 (by omega) (by omega)
          have ha1 : op.i1 + min (op.i2 - op.i1) n = min op.i2 (op.i1 + n) := by
            omega
          have ha2 : op.i1 + (op.i2 - op.i1) = op.i2 := by omega
          have hb1 : op.j1 + min (op.i2 - op.i1) n = min op.j2 (op.j1 + n) := by
            omega
          have hb2 : op.j1 + (op.i2 - op.i1) = op.j2 := by omega
          rw [ha1, ha2, hb1, hb2] at hq
          rw [← hend1, ← hend2]
          exact hq
      · have hshape : fixupLast n [op] = [op] := by
          obtain ⟨tg, i1, i2, j1, j2⟩ := op
          cases tg
          · exact absurd rfl htag
          · rfl
          · rfl
          · rfl
        rw [hshape]
        exact ⟨a.length, b.length,
          ⟨rfl, rfl, c3, c4, c5, c6, c7, c7d, c7i, hend1, hend2⟩,
          le_refl _, le_refl _, by omega, lslice_end_empty a b⟩
    | cons op2 rest2 =>
      obtain ⟨e, u, hchain, he, hu, hoff, hsl⟩ := ih op.i2 op.j2 c8
      have hshape : fixupLast n (op :: op2 :: rest2)
          = op :: fixupLast n (op2 :: rest2) := rfl
      rw [hshape]
      exact ⟨e, u, ⟨rfl, rfl, c3, c4, c5, c6, c7, c7d, c7i, hchain⟩,
        he, hu, hoff, hsl⟩

theorem fixupHead_chain (a b : List Line) (n : Nat) (codes : List Op)
    (hc : OpsChain a b 0 0 a.length b.length codes) (hne : codes ≠ []) :
    ∃ s t, OpsChain a b s t a.length b.length (fixupHead n codes)
      ∧ s = t ∧ lslice a 0 s = lslice b 0 t
      ∧ fixupHead n codes ≠ [] := by
  cases codes with
  | nil => exact absurd rfl hne
  | cons op rest =>
    obtain ⟨c1, c2, c3, c4, c5, c6, c7, c7d, c7i, c8⟩ := hc
    by_cases htag : op.tag = Tag.equal
    · obtain ⟨hlen, hsl⟩ := c7 htag
      have hshape : fixupHead n (op :: rest)
          = ⟨Tag.equal, max op.i1 (op.i2 - n), op.i2,
             max op.j1 (op.j2 - n), op.j2⟩ :: rest := by
        obtain ⟨tg, i1, i2, j1, j2⟩ := op
        simp only at htag
        subst htag
        rfl
      rw [hshape]
      have hij : op.i2 = op.j2 := by omega
      refine ⟨max op.i1 (op.i2 - n), max op.j1 (op.j2 - n), ?_,
        by omega, ?_, by simp⟩
      · refine ⟨rfl, rfl, (show max op.i1 (op.i2 - n) ≤ op.i2 by omega),
          (show max op.j1 (op.j2 - n) ≤ op.j2 by omega), c5, c6, ?_,
          (by intro h; cases h), (by intro h; cases h), c8⟩
        intro _
        constructor
        · show op.i2 - max op.i1 (op.i2 - n) = op.j2 - max op.j1 (op.j2 - n)
          omega
        · show lslice a (max op.i1 (op.i2 - n)) op.i2
            = lslice b (max op.j1 (op.j2 - n)) op.j2
          have hq := lslice_sub_eq a b op.i1 op.i2 op.j1 op.j2
            (max op.i1 (op.i2 - n) - op.i1) (op.i2 - op.i1) hsl hlen
            (by omega) (by omega) c5 c6 (by omega) (by omega)
          have ha1 : op.i1 + (max op.i1 (op.i2 - n) - op.i1)
              = max op.i1 (op.i2 - n) := by omega
          have ha2 : op.i1 + (op.i2 - op.i1) = op.i2 := by omega
          have hb1 : op.j1 + (max op.i1 (op.i2 - n) - op.i1)
              = max op.j1 (op.j2 - n) := by omega
          have hb2 : op.j1 + (op.i2 - op.i1) = op.j2 := by omega
          rw [ha1, ha2, hb1, hb2] at hq
          exact hq
      · have hq := lslice_sub_eq a b op.i1 op.i2 op.j1 op.j2 0
          (max op.i1 (op.i2 - n) - op.i1) hsl hlen (by omega) (by omega) c5 c6
          (by omega) (by omega)
        have ha1 : op.i1 + (max op.i1 (op.i2 - n) - op.i1)
            = max op.i1 (op.i2 - n) := by omega
        have hb1 : op.j1 + (max op.i1 (op.i2 - n) - op.i1)
            = max op.j1 (op.j2 - n) := by omega
        simp only [Nat.add_zero] at hq
        rw [ha1, hb1] at hq
        simp only [c1, c2] at hq ⊢
        exact hq
    · have hshape : fixupHead n (op :: rest) = op :: rest := by
        obtain ⟨tg, i1, i2, j1, j2⟩ := op
        cases tg
        · exact absurd rfl htag
        · rfl
        · rfl
        · rfl
      rw [hshape]
      refine ⟨0, 0, ⟨c1, c2, c3, c4, c5, c6, c7, c7d, c7i, c8⟩, rfl, ?_, by simp⟩
      rw [lslice_nil_of_ge a 0 0 (le_refl _), lslice_nil_of_ge b 0 0 (le_refl _)]

theorem grouped_opcodes_linked (a b : List Line) :
    LinkedGroups a b 0 0 (get_grouped_opcodes a b 3) := by
  have hch := get_opcodes_chain a b
  by_cases hemp : (get_opcodes a b).isEmpty = true
  · have hnil : get_opcodes a b = [] := by
      cases hx : get_opcodes a b
      · rfl
      · rw [hx] at hemp; cases hemp
    rw [hnil] at hch
    obtain ⟨ha0, hb0⟩ := hch
    have ha : a = [] := List.length_eq_zero.mp ha0.symm
    have hb : b = [] := List.length_eq_zero.mp hb0.symm
    subst ha
    subst hb
    have hg : get_grouped_opcodes [] [] 3 = [] := by rfl
    rw [hg]
    exact ⟨Nat.le_refl _, Nat.le_refl _, rfl, rfl⟩
  · have hne : get_opcodes a b ≠ [] := by
      intro h
      rw [h] at hemp
      exact hemp rfl
    show LinkedGroups a b 0 0 (groupLoop 3 (fixupLast 3 (fixupHead 3
      (if (get_opcodes a b).isEmpty then [⟨.equal, 0, 1, 0, 1⟩]
       else get_opcodes a b))) [] [])
    rw [if_neg hemp]
    obtain ⟨s, t, hch1, hst, hsl0, hne1⟩ := fixupHead_chain a b 3 _ hch hne
    obtain ⟨e, u, hch2, he, hu, hoff, hsuf⟩ :=
      fixupLast_chain a b 3 (fixupHead 3 (get_opcodes a b)) s t hch1
    exact groupLoop_linked a b 3 e u he hu hoff hsuf _ [] 0 0 s t s t hch2
      ⟨rfl, rfl⟩ (fun _ => ⟨rfl, rfl⟩) (Nat.zero_le _) (Nat.zero_le _)
      (by omega) hsl0

/-! ### Splitting and joining clean texts -/

theorem splitLinesAux_flatten : ∀ (acc cs : List Char),
    (splitLinesAux acc cs).flatten = acc.reverse ++ cs := by
  intro acc cs
  induction acc, cs using splitLinesAux.induct with
  | case1 acc h =>
    have : acc = [] := by
      cases acc
      · rfl
      · cases h
    simp [splitLinesAux, this]
  | case2 acc h => simp [splitLinesAux, h]
  | case3 acc c h => simp [splitLinesAux, h]
  | case4 acc c h => simp [splitLinesAux, h]
  | case5 acc c c2 rest h ih =>
    obtain ⟨rfl, rfl⟩ := h
    simp [splitLinesAux, ih]
  | case6 acc c c2 rest h hbrk ih =>
    simp only [splitLinesAux, if_neg h, if_pos hbrk, List.flatten_cons, ih]
    simp
  | case7 acc c c2 rest h hbrk ih =>
    simp only [splitLinesAux, if_neg h, if_neg hbrk, ih]
    simp

theorem splitLinesAux_clean_append : ∀ (init : List Char), BreakFree init →
    ∀ (acc cs : List Char),
    splitLinesAux acc (init ++ '\n' :: cs)
      = (acc.reverse ++ init ++ ['\n']) :: splitLinesAux [] cs := by
  intro init
  induction init with
  | nil =>
    intro _ acc cs
    cases cs with
    | nil =>
      simp [splitLinesAux, (by decide : pyIsLineBreak '\n' = true)]
    | cons c2 tail =>
      have hcond : ¬('\n' = '\x0d' ∧ c2 = '\n') := by
        intro h
        exact absurd h.1 (by decide)
      simp [splitLinesAux, hcond, (by decide : pyIsLineBreak '\n' = true)]
  | cons c init' ih =>
    intro hbf acc cs
    have hbc : pyIsLineBreak c = false := hbf c (by simp)
    have hbf' : BreakFree init' := by
      intro x hx
      exact hbf x (by simp [hx])
    have hcd : ¬(c = '\x0d' ∧ ((init' ++ '\n' :: cs).headD ' ') = '\n') := by
      intro h
      rw [h.1] at hbc
      exact absurd hbc (by decide)
    cases hsplit : init' ++ '\n' :: cs with
    | nil => exact absurd hsplit (List.append_ne_nil_of_right_ne_nil _ (by simp))
    | cons c2 tail =>
      have hcd2 : ¬(c = '\x0d' ∧ c2 = '\n') := by
        intro h
        rw [h.1] at hbc
        exact absurd hbc (by decide)
      have : splitLinesAux acc ((c :: init') ++ '\n' :: cs)
          = splitLinesAux (c :: acc) (init' ++ '\n' :: cs) := by
        rw [List.cons_append, hsplit]
        simp only [splitLinesAux, if_neg hcd2, hbc]
        simp [← hsplit]
      rw [this, ih hbf' (c :: acc) cs]
      simp [List.append_assoc]

theorem splitLines_clean : ∀ (ls : List Line), (∀ l ∈ ls, CleanLine l) →
    splitLinesAux [] ls.flatten = ls := by
  intro ls
  induction ls with
  | nil => intro _; simp [splitLinesAux]
  | cons l rest ih =>
    intro h
    obtain ⟨init, rfl, hbf⟩ := h l (by simp)
    have : ((init ++ ['\n']) :: rest).flatten = init ++ '\n' :: rest.flatten := by
      simp
    rw [this, splitLinesAux_clean_append init hbf [] rest.flatten,
      ih (fun x hx => h x (by simp [hx]))]
    simp

theorem normalizeTrailingNewline_data (s : String) :
    (normalizeTrailingNewline s).data = normText s.data := by
  unfold normalizeTrailingNewline normText
  by_cases h : s.data.getLast? = some '\n' ∨ s.data = []
  · rw [if_pos h, if_pos h]
  · rw [if_neg h, if_neg h]

theorem normLines_cons_ne (l : Line) (r : List Line) (h : r ≠ []) :
    normLines (l :: r) = l :: normLines r := by
  cases r with
  | nil => exact absurd rfl h
  | cons x xs => rfl

theorem endsWithNl_concat (xs : List Char) : endsWithNl (xs ++ ['\n']) = true := by
  simp [endsWithNl, List.getLast?_concat]

theorem endsWithNl_breakfree (xs : List Char) (hbf : BreakFree xs) :
    endsWithNl xs = false := by
  unfold endsWithNl
  cases h : xs.getLast? with
  | none => rfl
  | some c =>
    have hc : c ∈ xs := List.mem_of_mem_getLast? h
    have hne : ¬(c = '\n') := by
      intro he
      rw [he] at hc
      have := hbf '\n' hc
      exact absurd this (by decide)
    simp [hne]

theorem breakFree_reverse (xs : List Char) (h : BreakFree xs) :
    BreakFree xs.reverse := by
  intro c hc
  exact h c (List.mem_reverse.mp hc)

theorem normText_breakfree (xs : List Char) (hbf : BreakFree xs) (hne : xs ≠ []) :
    normText xs = xs ++ ['\n'] := by
  unfold normText
  rw [if_neg]
  intro h
  rcases h with h | h
  · have := hbf '\n' (List.mem_of_mem_getLast? h)
    exact absurd this (by decide)
  · exact hne h

theorem normText_concat_nl (xs : List Char) :
    normText (xs ++ ['\n']) = xs ++ ['\n'] := by
  unfold normText
  rw [if_pos (Or.inl (List.getLast?_concat _))]

theorem normLines_split : ∀ (acc cs : List Char),
    (∀ c ∈ cs, pyIsLineBreak c = true → c = '\n') → BreakFree acc →
    (∀ l ∈ normLines (splitLinesAux acc cs), CleanLine l)
    ∧ (normLines (splitLinesAux acc cs)).flatten = normText (acc.reverse ++ cs) := by
  intro acc cs
  induction acc, cs using splitLinesAux.induct with
  | case1 acc h =>
    intro _ _
    have ha : acc = [] := by
      cases acc
      · rfl
      · cases h
    subst ha
    constructor
    · intro l hl
      simp [splitLinesAux, normLines] at hl
    · simp [splitLinesAux, normLines, normText]
  | case2 acc h =>
    intro _ hacc
    have hne : acc ≠ [] := by
      intro he
      rw [he] at h
      exact h rfl
    have hbr := breakFree_reverse acc hacc
    have hshape : splitLinesAux acc [] = [acc.reverse] := by
      simp [splitLinesAux, h]
    have hnorm : normLines [acc.reverse] = [acc.reverse ++ ['\n']] := by
      simp [normLines, endsWithNl_breakfree _ hbr]
    rw [hshape, hnorm]
    constructor
    · intro l hl
      simp only [List.mem_singleton] at hl
      exact ⟨acc.reverse, hl, hbr⟩
    · have hrne : acc.reverse ≠ [] := by simpa using hne
      simp only [List.flatten_cons, List.flatten_nil, List.append_nil]
      rw [normText_breakfree acc.reverse hbr hrne]
  | case3 acc c h =>
    intro hcs hacc
    have hcn : c = '\n' := hcs c (by simp) h
    subst hcn
    have hshape : splitLinesAux acc ['\n'] = [acc.reverse ++ ['\n']] := by
      simp [splitLinesAux]
    have hnorm : normLines [acc.reverse ++ ['\n']] = [acc.reverse ++ ['\n']] := by
      simp [normLines, endsWithNl_concat]
    rw [hshape, hnorm]
    constructor
    · intro l hl
      simp only [List.mem_singleton] at hl
      exact ⟨acc.reverse, hl, breakFree_reverse acc hacc⟩
    · simp only [List.flatten_cons, List.flatten_nil, List.append_nil]
      rw [normText_concat_nl]
  | case4 acc c h =>
    intro _ hacc
    have hbc : pyIsLineBreak c = false := by simpa using h
    have hbf2 : BreakFree (acc.reverse ++ [c]) := by
      intro x hx
      rcases List.mem_append.mp hx with h1 | h2
      · exact hacc x (List.mem_reverse.mp h1)
      · simp only [List.mem_singleton] at h2
        rw [h2]
        exact hbc
    have hshape : splitLinesAux acc [c] = [acc.reverse ++ [c]] := by
      simp [splitLinesAux, h]
    have hnorm : normLines [acc.reverse ++ [c]] = [acc.reverse ++ [c] ++ ['\n']] := by
      simp [normLines, endsWithNl_breakfree _ hbf2]
    rw [hshape, hnorm]
    constructor
    · intro l hl
      simp only [List.mem_singleton] at hl
      exact ⟨acc.reverse ++ [c], hl, hbf2⟩
    · simp only [List.flatten_cons, List.flatten_nil, List.append_nil]
      rw [normText_breakfree _ hbf2 (by simp)]
  | case5 acc c c2 rest h ih =>
    intro hcs _
    have hcn := hcs c (by simp) (by rw [h.1]; decide)
    rw [h.1] at hcn
    cases hcn
  | case6 acc c c2 rest h hbrk ih =>
    intro hcs hacc
    have hcn : c = '\n' := hcs c (by simp) hbrk
    subst hcn
    have hrec := ih (fun x hx hb => hcs x (by simp [hx]) hb)
      (fun x hx => absurd hx (List.not_mem_nil x))
    have hshape : splitLinesAux acc ('\n' :: c2 :: rest)
        = (acc.reverse ++ ['\n']) :: splitLinesAux [] (c2 :: rest) := by
      simp only [splitLinesAux, if_neg h, hbrk, if_pos]
    have hrecne : splitLinesAux [] (c2 :: rest) ≠ [] := by
      intro he
      have hf := splitLinesAux_flatten [] (c2 :: rest)
      rw [he] at hf
      simp at hf
    rw [hshape, normLines_cons_ne _ _ hrecne]
    obtain ⟨hrc, hrf⟩ := hrec
    constructor
    · intro l hl
      rcases List.mem_cons.mp hl with h1 | h2
      · exact ⟨acc.reverse, h1, breakFree_reverse acc hacc⟩
      · exact hrc l h2
    · simp only [List.flatten_cons, hrf, List.reverse_nil, List.nil_append]
      have hgl : (acc.reverse ++ '\n' :: c2 :: rest).getLast? = (c2 :: rest).getLast? := by
        have : acc.reverse ++ '\n' :: c2 :: rest = (acc.reverse ++ ['\n']) ++ (c2 :: rest) := by
          simp
        rw [this, List.getLast?_append_of_ne_nil _ (by simp)]
      unfold normText
      by_cases hnl : (c2 :: rest).getLast? = some '\n'
      · rw [if_pos (Or.inl hnl), if_pos (Or.inl (by rw [hgl]; exact hnl))]
        simp
      · have h1 : ¬((c2 :: rest).getLast? = some '\n' ∨ c2 :: rest = []) := by
          intro hx
          rcases hx with hx | hx
          · exact hnl hx
          · simp at hx
        have h2 : ¬((acc.reverse ++ '\n' :: c2 :: rest).getLast? = some '\n'
            ∨ acc.reverse ++ '\n' :: c2 :: rest = []) := by
          intro hx
          rcases hx with hx | hx
          · rw [hgl] at hx
            exact hnl hx
          · simp at hx
        rw [if_neg h1, if_neg h2]
        simp
  | case7 acc c c2 rest h hbrk ih =>
    intro hcs hacc
    have hbc : pyIsLineBreak c = false := by simpa using hbrk
    have hacc2 : BreakFree (c :: acc) := by
      intro x hx
      rcases List.mem_cons.mp hx with h1 | h2
      · rw [h1]
        exact hbc
      · exact hacc x h2
    have hrec := ih (fun x hx hb => hcs x (by simp [hx]) hb) hacc2
    have hshape : splitLinesAux acc (c :: c2 :: rest)
        = splitLinesAux (c :: acc) (c2 :: rest) := by
      simp [splitLinesAux, h, hbc]
    rw [hshape]
    obtain ⟨h1, h2⟩ := hrec
    refine ⟨h1, ?_⟩
    rw [h2]
    have : (c :: acc).reverse ++ c2 :: rest = acc.reverse ++ c :: c2 :: rest := by
      simp
    rw [this]

theorem sourceLines_clean (A : String) (hA : OnlyLF A) :
    ∀ l ∈ normLines (pySplitLinesKE A), CleanLine l :=
  (normLines_split [] A.data hA (fun x hx => absurd hx (List.not_mem_nil x))).1

theorem sourceLines_flatten (A : String) (hA : OnlyLF A) :
    (normLines (pySplitLinesKE A)).flatten = (normalizeTrailingNewline A).data := by
  rw [normalizeTrailingNewline_data]
  have h := (normLines_split [] A.data hA
    (fun x hx => absurd hx (List.not_mem_nil x))).2
  simpa using h

theorem split_normSource (A : String) (hA : OnlyLF A) :
    splitLinesAux [] (normalizeTrailingNewline A).data
      = normLines (pySplitLinesKE A) := by
  rw [← sourceLines_flatten A hA]
  exact splitLines_clean _ (sourceLines_clean A hA)

/-! ### The rendered diff lines are clean -/

theorem breakFree_append (xs ys : List Char) (h1 : BreakFree xs)
    (h2 : BreakFree ys) : BreakFree (xs ++ ys) := by
  intro c hc
  rcases List.mem_append.mp hc with h | h
  · exact h1 c h
  · exact h2 c h

theorem breakFree_natToDecAux : ∀ (fuel n : Nat), BreakFree (natToDecAux fuel n) := by
  intro fuel
  induction fuel with
  | zero => intro n c hc; cases hc
  | succ f ih =>
    intro n
    unfold natToDecAux
    by_cases h : n < 10
    · rw [if_pos h]
      intro c hc
      simp only [List.mem_singleton] at hc
      subst hc
      interval_cases n <;> decide
    · rw [if_neg h]
      apply breakFree_append _ _ (ih _)
      intro c hc
      simp only [List.mem_singleton] at hc
      subst hc
      have hm : n % 10 < 10 := Nat.mod_lt _ (by norm_num)
      set m := n % 10 with hmm
      interval_cases m <;> decide

theorem breakFree_natToDec (n : Nat) : BreakFree (natToDec n) :=
  breakFree_natToDecAux _ _

theorem breakFree_formatRange (i j : Nat) : BreakFree (formatRange i j) := by
  unfold formatRange
  by_cases h : j - i = 1
  · rw [if_pos h]
    exact breakFree_natToDec _
  · rw [if_neg h]
    exact breakFree_append _ _ (breakFree_append _ _ (breakFree_natToDec _)
      (fun c hc => by fin_cases hc <;> decide)) (breakFree_natToDec _)

theorem clean_hunkHeader (i1 i2 j1 j2 : Nat) : CleanLine (hunkHeader i1 i2 j1 j2) := by
  refine ⟨"@@ -".data ++ formatRange i1 i2 ++ " +".data ++ formatRange j1 j2
    ++ " @@".data, rfl, ?_⟩
  exact breakFree_append _ _ (breakFree_append _ _ (breakFree_append _ _
    (breakFree_append _ _ (fun c hc => by fin_cases hc <;> decide)
      (breakFree_formatRange _ _)) (fun c hc => by fin_cases hc <;> decide))
    (breakFree_formatRange _ _)) (fun c hc => by fin_cases hc <;> decide)

theorem cons_clean (c : Char) (l : Line) (hc : pyIsLineBreak c = false)
    (hl : CleanLine l) : CleanLine (c :: l) := by
  obtain ⟨init, rfl, hbf⟩ := hl
  refine ⟨c :: init, rfl, ?_⟩
  intro x hx
  rcases List.mem_cons.mp hx with h | h
  · rw [h]
    exact hc
  · exact hbf x h

theorem mem_of_mem_lslice (x : Line) (l : List Line) (i1 i2 : Nat)
    (h : x ∈ lslice l i1 i2) : x ∈ l :=
  List.drop_subset _ _ (List.take_subset _ _ h)

theorem clean_opLines (a b : List Line) (op : Op) (l : Line)
    (ha : ∀ x ∈ a, CleanLine x) (hb : ∀ x ∈ b, CleanLine x)
    (hl : l ∈ opLines a b op) : CleanLine l := by
  unfold opLines at hl
  cases htag : op.tag <;> rw [htag] at hl
  · obtain ⟨x, hx, rfl⟩ := List.mem_map.mp hl
    exact cons_clean _ _ (by decide) (ha x (mem_of_mem_lslice _ _ _ _ hx))
  · rcases List.mem_append.mp hl with h | h
    · obtain ⟨x, hx, rfl⟩ := List.mem_map.mp h
      exact cons_clean _ _ (by decide) (ha x (mem_of_mem_lslice _ _ _ _ hx))
    · obtain ⟨x, hx, rfl⟩ := List.mem_map.mp h
      exact cons_clean _ _ (by decide) (hb x (mem_of_mem_lslice _ _ _ _ hx))
  · obtain ⟨x, hx, rfl⟩ := List.mem_map.mp hl
    exact cons_clean _ _ (by decide) (ha x (mem_of_mem_lslice _ _ _ _ hx))
  · obtain ⟨x, hx, rfl⟩ := List.mem_map.mp hl
    exact cons_clean _ _ (by decide) (hb x (mem_of_mem_lslice _ _ _ _ hx))

theorem clean_hunkLines (a b : List Line) (g : List Op) (l : Line)
    (ha : ∀ x ∈ a, CleanLine x) (hb : ∀ x ∈ b, CleanLine x)
    (hl : l ∈ hunkLines a b g) : CleanLine l := by
  unfold hunkLines at hl
  cases g with
  | nil => cases hl
  | cons first rest =>
    rcases List.mem_cons.mp hl with h | h
    · rw [h]
      exact clean_hunkHeader _ _ _ _
    · obtain ⟨ls, hls, hlm⟩ := List.mem_flatten.mp h
      obtain ⟨op, _, rfl⟩ := List.mem_map.mp hls
      exact clean_opLines a b op l ha hb hlm

theorem clean_unified_diff_lines (a b : List Line) (f1 f2 : Line)
    (ha : ∀ x ∈ a, CleanLine x) (hb : ∀ x ∈ b, CleanLine x)
    (hf1 : BreakFree f1) (hf2 : BreakFree f2) :
    ∀ l ∈ unified_diff_lines a b f1 f2, CleanLine l := by
  intro l hl
  unfold unified_diff_lines at hl
  by_cases hg : (get_grouped_opcodes a b 3).isEmpty
  · rw [if_pos hg] at hl
    cases hl
  · rw [if_neg hg] at hl
    rcases List.mem_cons.mp hl with h | h
    · rw [h]
      exact ⟨"--- ".data ++ f1, rfl, breakFree_append _ _
        (fun c hc => by fin_cases hc <;> decide) hf1⟩
    rcases List.mem_cons.mp h with h2 | h2
    · rw [h2]
      exact ⟨"+++ ".data ++ f2, rfl, breakFree_append _ _
        (fun c hc => by fin_cases hc <;> decide) hf2⟩
    · obtain ⟨ls, hls, hlm⟩ := List.mem_flatten.mp h2
      obtain ⟨g, _, rfl⟩ := List.mem_map.mp hls
      exact clean_hunkLines a b g l ha hb hlm

/-! ### Applying the rendered hunks -/

theorem applyHunkBody_append (als : List Line) :
    ∀ (xs : List Line) (pos : Nat) (o : List Line) (p : Nat) (ys : List Line),
    applyHunkBody als pos xs = some (o, p) →
    applyHunkBody als pos (xs ++ ys)
      = (applyHunkBody als p ys).map fun q => (o ++ q.1, q.2) := by
  intro xs
  induction xs with
  | nil =>
    intro pos o p ys h
    simp only [applyHunkBody, Option.some.injEq, Prod.mk.injEq] at h
    obtain ⟨rfl, rfl⟩ := h
    simp only [List.nil_append]
    cases hy : applyHunkBody als pos ys with
    | none => simp
    | some q => simp
  | cons l body ih =>
    intro pos o p ys h
    cases l with
    | nil =>
      simp only [applyHunkBody] at h
      cases h
    | cons c content =>
      simp only [applyHunkBody, List.append_eq] at h ⊢
      by_cases hsp : c = ' '
      · rw [if_pos hsp] at h ⊢
        by_cases hget : als.get? pos = some content
        · rw [if_pos hget] at h ⊢
          cases hrec : applyHunkBody als (pos + 1) body with
          | none => rw [hrec] at h; cases h
          | some q =>
            rw [hrec] at h
            simp at h
            obtain ⟨h1, h2⟩ := h
            subst h1
            subst h2
            rw [ih (pos + 1) q.1 q.2 ys hrec, Option.map_map]
            rfl
        · rw [if_neg hget] at h
          cases h
      · rw [if_neg hsp] at h ⊢
        by_cases hmn : c = '-'
        · rw [if_pos hmn] at h ⊢
          by_cases hget : als.get? pos = some content
          · rw [if_pos hget] at h ⊢
            exact ih (pos + 1) o p ys h
          · rw [if_neg hget] at h
            cases h
        · rw [if_neg hmn] at h ⊢
          by_cases hpl : c = '+'
          · rw [if_pos hpl] at h ⊢
            cases hrec : applyHunkBody als pos body with
            | none => rw [hrec] at h; cases h
            | some q =>
              rw [hrec] at h
              simp at h
              obtain ⟨h1, h2⟩ := h
              subst h1
              subst h2
              rw [ih pos q.1 q.2 ys hrec, Option.map_map]
              rfl
          · rw [if_neg hpl] at h
            cases h

theorem applyHunkBody_spaces (als : List Line) :
    ∀ (xs : List Line) (pos : Nat),
    (∀ k, k < xs.length → als.get? (pos + k) = xs.get? k) →
    applyHunkBody als pos (xs.map (fun l => ' ' :: l))
      = some (xs, pos + xs.length) := by
  intro xs
  induction xs with
  | nil => intro pos _; simp [applyHunkBody]
  | cons x rest ih =>
    intro pos h
    have h0 : als.get? pos = some x := by
      have := h 0 (by simp)
      simpa using this
    simp only [List.map_cons, applyHunkBody, if_pos rfl, h0, if_pos]
    rw [ih (pos + 1) (fun k hk => by
      have := h (k + 1) (by simpa using Nat.succ_lt_succ hk)
      simpa [Nat.add_assoc, Nat.add_comm 1 k] using this)]
    simp [Nat.add_assoc, Nat.add_comm 1 rest.length]

theorem applyHunkBody_minus (als : List Line) :
    ∀ (xs : List Line) (pos : Nat),
    (∀ k, k < xs.length → als.get? (pos + k) = xs.get? k) →
    applyHunkBody als pos (xs.map (fun l => '-' :: l))
      = some ([], pos + xs.length) := by
  intro xs
  induction xs with
  | nil => intro pos _; simp [applyHunkBody]
  | cons x rest ih =>
    intro pos h
    have h0 : als.get? pos = some x := by
      have := h 0 (by simp)
      simpa using this
    simp only [List.map_cons, applyHunkBody, (by decide : ¬('-' = ' ')),
      if_neg, if_pos rfl, h0, if_pos]
    rw [ih (pos + 1) (fun k hk => by
      have := h (k + 1) (by simpa using Nat.succ_lt_succ hk)
      simpa [Nat.add_assoc, Nat.add_comm 1 k] using this)]
    simp [Nat.add_assoc, Nat.add_comm 1 rest.length]

theorem applyHunkBody_plus (als : List Line) :
    ∀ (xs : List Line) (pos : Nat),
    applyHunkBody als pos (xs.map (fun l => '+' :: l)) = some (xs, pos) := by
  intro xs
  induction xs with
  | nil => intro pos; simp [applyHunkBody]
  | cons x rest ih =>
    intro pos
    simp only [List.map_cons, applyHunkBody, (by decide : ¬('+' = ' ')),
      (by decide : ¬('+' = '-')), if_neg, if_pos rfl]
    rw [ih pos]
    simp

theorem lslice_get_fact (l : List Line) (i1 i2 : Nat) (h1 : i1 ≤ i2)
    (h2 : i2 ≤ l.length) :
    ∀ k, k < (lslice l i1 i2).length → l.get? (i1 + k) = (lslice l i1 i2).get? k := by
  intro k hk
  rw [lslice_length l i1 i2 h1 h2] at hk
  rw [lslice_get? l i1 i2 k hk]

theorem applyHunkBody_op (a b : List Line) (op : Op)
    (h1 : op.i1 ≤ op.i2) (h2 : op.i2 ≤ a.length)
    (h3 : op.j1 ≤ op.j2)
    (heq : op.tag = Tag.equal → lslice a op.i1 op.i2 = lslice b op.j1 op.j2)
    (hdel : op.tag = Tag.delete → op.j1 = op.j2)
    (hins : op.tag = Tag.insert → op.i1 = op.i2) :
    applyHunkBody a op.i1 (opLines a b op)
      = some (lslice b op.j1 op.j2, op.i2) := by
  unfold opLines
  cases htag : op.tag
  · show applyHunkBody a op.i1 ((lslice a op.i1 op.i2).map (fun l => ' ' :: l))
      = some (lslice b op.j1 op.j2, op.i2)
    rw [applyHunkBody_spaces a _ _ (lslice_get_fact a op.i1 op.i2 h1 h2)]
    rw [lslice_length a op.i1 op.i2 h1 h2, heq htag]
    congr 1
    congr 1
    omega
  · show applyHunkBody a op.i1 ((lslice a op.i1 op.i2).map (fun l => '-' :: l)
        ++ (lslice b op.j1 op.j2).map (fun l => '+' :: l))
      = some (lslice b op.j1 op.j2, op.i2)
    have hm := applyHunkBody_minus a (lslice a op.i1 op.i2) op.i1
      (lslice_get_fact a op.i1 op.i2 h1 h2)
    rw [applyHunkBody_append a _ _ _ _ _ hm, applyHunkBody_plus a _ _]
    rw [lslice_length a op.i1 op.i2 h1 h2]
    show some ([] ++ lslice b op.j1 op.j2, op.i1 + (op.i2 - op.i1)) = _
    simp only [List.nil_append]
    congr 1
    congr 1
    omega
  · show applyHunkBody a op.i1 ((lslice a op.i1 op.i2).map (fun l => '-' :: l))
      = some (lslice b op.j1 op.j2, op.i2)
    rw [applyHunkBody_minus a _ _ (lslice_get_fact a op.i1 op.i2 h1 h2)]
    rw [lslice_nil_of_ge b op.j1 op.j2 (by have := hdel htag; omega)]
    rw [lslice_length a op.i1 op.i2 h1 h2]
    congr 1
    congr 1
    omega
  · show applyHunkBody a op.i1 ((lslice b op.j1 op.j2).map (fun l => '+' :: l))
      = some (lslice b op.j1 op.j2, op.i2)
    rw [applyHunkBody_plus a _ _]
    rw [hins htag]

theorem applyHunkBody_group (a b : List Line) :
    ∀ (g : List Op) (s t e u : Nat), OpsChain a b s t e u g →
    applyHunkBody a s ((g.map (opLines a b)).flatten)
      = some (lslice b t u, e) := by
  intro g
  induction g with
  | nil =>
    intro s t e u hc
    obtain ⟨rfl, rfl⟩ := hc
    simp only [List.map_nil, List.flatten_nil, applyHunkBody]
    rw [lslice_nil_of_ge b t t (le_refl _)]
  | cons op rest ih =>
    intro s t e u hc
    obtain ⟨c1, c2, c3, c4, c5, c6, c7, c7d, c7i, c8⟩ := hc
    subst c1
    subst c2
    have hop := applyHunkBody_op a b op c3 c5 c4
      (fun ht => (c7 ht).2) c7d c7i
    have hrest := ih op.i2 op.j2 e u c8
    have hmono := opsChain_mono a b rest op.i2 op.j2 e u c8
    simp only [List.map_cons, List.flatten_cons]
    rw [applyHunkBody_append a _ _ _ _ _ hop, hrest]
    show some (lslice b op.j1 op.j2 ++ lslice b op.j2 u, e)
      = some (lslice b op.j1 u, e)
    rw [← lslice_split b op.j1 op.j2 u c4 hmono.2]

theorem lslice_drop (l : List Line) (i : Nat) : lslice l i l.length = l.drop i := by
  unfold lslice
  rw [← List.length_drop, List.take_length]

theorem isBodyLine_opLines (a b : List Line) (op : Op) :
    ∀ l ∈ opLines a b op, isBodyLine l = true := by
  intro l hl
  unfold opLines at hl
  cases htag : op.tag <;> rw [htag] at hl
  · obtain ⟨x, _, rfl⟩ := List.mem_map.mp hl
    rfl
  · rcases List.mem_append.mp hl with h | h
    · obtain ⟨x, _, rfl⟩ := List.mem_map.mp h
      rfl
    · obtain ⟨x, _, rfl⟩ := List.mem_map.mp h
      rfl
  · obtain ⟨x, _, rfl⟩ := List.mem_map.mp hl
    rfl
  · obtain ⟨x, _, rfl⟩ := List.mem_map.mp hl
    rfl

theorem hunkHeader_cons (i1 i2 j1 j2 : Nat) :
    hunkHeader i1 i2 j1 j2
      = '@' :: ('@' :: (' ' :: ('-' :: (formatRange i1 i2 ++ " +".data
          ++ formatRange j1 j2 ++ " @@".data ++ ['\n'])))) := by
  unfold hunkHeader
  simp

theorem isBodyLine_hunkHeader (i1 i2 j1 j2 : Nat) :
    isBodyLine (hunkHeader i1 i2 j1 j2) = false := by
  rw [hunkHeader_cons]
  rfl

theorem takeWhile_append_all (p : Line → Bool) :
    ∀ (xs ys : List Line), (∀ x ∈ xs, p x = true) →
    (xs ++ ys).takeWhile p = xs ++ ys.takeWhile p := by
  intro xs
  induction xs with
  | nil => intro ys _; simp
  | cons x rest ih =>
    intro ys h
    simp only [List.cons_append, List.takeWhile_cons, h x (by simp)]
    rw [ih ys (fun z hz => h z (by simp [hz]))]
    simp

theorem dropWhile_append_all (p : Line → Bool) :
    ∀ (xs ys : List Line), (∀ x ∈ xs, p x = true) →
    (xs ++ ys).dropWhile p = ys.dropWhile p := by
  intro xs
  induction xs with
  | nil => intro ys _; simp
  | cons x rest ih =>
    intro ys h
    simp only [List.cons_append, List.dropWhile_cons, h x (by simp)]
    rw [ih ys (fun z hz => h z (by simp [hz]))]
    simp

theorem linkedGroups_le (a b : List Line) :
    ∀ (gs : List (List Op)) (pA pB : Nat), LinkedGroups a b pA pB gs →
    pA ≤ a.length ∧ pB ≤ b.length := by
  intro gs
  induction gs with
  | nil =>
    intro pA pB h
    exact ⟨h.1, h.2.1⟩
  | cons g rest ih =>
    intro pA pB h
    obtain ⟨s, e, t, u, _, hchain, hpa, hpb, _, _, hrest⟩ := h
    have hm := opsChain_mono a b g s t e u hchain
    have := ih e u hrest
    exact ⟨by omega, by omega⟩

theorem groupFlat_stop (a b : List Line) (gs : List (List Op)) (pA pB : Nat)
    (h : LinkedGroups a b pA pB gs) :
    ((gs.map (hunkLines a b)).flatten).takeWhile isBodyLine = []
    ∧ ((gs.map (hunkLines a b)).flatten).dropWhile isBodyLine
        = (gs.map (hunkLines a b)).flatten := by
  cases gs with
  | nil => simp
  | cons g rest =>
    obtain ⟨s, e, t, u, hgne, _⟩ := h
    cases g with
    | nil => exact absurd rfl hgne
    | cons first grest =>
      simp only [List.map_cons, List.flatten_cons, hunkLines, List.cons_append]
      constructor
      · rw [List.takeWhile_cons, isBodyLine_hunkHeader]
        simp
      · rw [List.dropWhile_cons, isBodyLine_hunkHeader]
        simp

theorem patchRun_groups (a b : List Line) :
    ∀ (gs : List (List Op)) (pA pB fuel : Nat),
    LinkedGroups a b pA pB gs →
    ((gs.map (hunkLines a b)).flatten).length ≤ fuel →
    patchRun a fuel pA ((gs.map (hunkLines a b)).flatten)
      = some (lslice b pB b.length) := by
  intro gs
  induction gs with
  | nil =>
    intro pA pB fuel h _
    obtain ⟨hpa, hpb, hoff, hsuf⟩ := h
    simp only [List.map_nil, List.flatten_nil, patchRun]
    rw [← lslice_drop a pA, hsuf]
  | cons g rest ih =>
    intro pA pB fuel h hfuel
    obtain ⟨s, e, t, u, hgne, hchain, hpa, hpb, hoff, hpre, hrest⟩ := h
    cases g with
    | nil => exact absurd rfl hgne
    | cons first grest =>
      have hlines : (((first :: grest) :: rest).map (hunkLines a b)).flatten
          = hunkHeader first.i1 ((first :: grest).getLastD first).i2 first.j1
              ((first :: grest).getLastD first).j2
            :: (((first :: grest).map (opLines a b)).flatten
                ++ (rest.map (hunkLines a b)).flatten) := by
        simp only [List.map_cons, List.flatten_cons, hunkLines, List.cons_append]
      rw [hlines] at hfuel ⊢
      cases fuel with
      | zero => simp at hfuel
      | succ f =>
        have hc1 : first.i1 = s := hchain.1
        have hmono := opsChain_mono a b (first :: grest) s t e u hchain
        have hble := linkedGroups_le a b rest e u hrest
        have hbody : ∀ x ∈ ((first :: grest).map (opLines a b)).flatten,
            isBodyLine x = true := by
          intro x hx
          obtain ⟨ls, hls, hxm⟩ := List.mem_flatten.mp hx
          obtain ⟨op, _, rfl⟩ := List.mem_map.mp hls
          exact isBodyLine_opLines a b op x hxm
        have hstop := groupFlat_stop a b rest e u hrest
        simp only [patchRun, parseHeader_hunkHeader]
        rw [if_pos (by omega : pA ≤ first.i1)]
        rw [takeWhile_append_all _ _ _ hbody, hstop.1, List.append_nil]
        rw [hc1, applyHunkBody_group a b (first :: grest) s t e u hchain]
        rw [dropWhile_append_all _ _ _ hbody, hstop.2]
        have hflen : ((rest.map (hunkLines a b)).flatten).length ≤ f := by
          simp only [List.length_cons, List.length_append] at hfuel
          omega
        show Option.map (fun tl => lslice a pA s ++ lslice b t u ++ tl)
            (patchRun a f e ((rest.map (hunkLines a b)).flatten))
          = some (lslice b pB b.length)
        rw [ih e u f hrest hflen]
        show some (lslice a pA s ++ lslice b t u ++ lslice b u b.length)
          = some (lslice b pB b.length)
        rw [hpre, ← lslice_split b pB t u hpb hmono.2,
          ← lslice_split b pB u b.length (by omega) hble.2]

/-! ### Top-level assembly of the round trip -/

theorem string_mk_data (s : String) : String.mk s.data = s := by
  cases s
  rfl

theorem take4_prefix (pre x : List Char) (h : pre.length = 4) :
    (pre ++ x).take 4 = pre := by
  rw [← h, List.take_left]

theorem hunkHeader_take4 (i1 i2 j1 j2 : Nat) :
    (hunkHeader i1 i2 j1 j2).take 4 = "@@ -".data := by
  rw [hunkHeader_cons]
  rfl

/-- C6 amended: `generate_unified_diff` round-trips at the level of the
trailing-newline-normalized texts, not byte-for-byte.  For texts whose only
line-break character is `'\n'` and a break-free label, applying the produced
diff to the normalized original reproduces the normalized modified text; when
`B` lacks a trailing newline the application yields `B ++ "\n"`, not `B`,
because the normalization at tools/approval.py lines 63-67 bakes the added
newline into the diff body (see the counterexample). -/
theorem claim6_diff_roundtrip (A B L : String)
    (hA : OnlyLF A) (hB : OnlyLF B) (hL : BreakFree L.data) :
    applyUnifiedDiff (generate_unified_diff A B L) (normalizeTrailingNewline A)
      = some (normalizeTrailingNewline B) := by
  have hals := split_normSource A hA
  have haclean := sourceLines_clean A hA
  have hbclean := sourceLines_clean B hB
  have hf1 : BreakFree ("a/".data ++ L.data) :=
    breakFree_append _ _ (fun c hc => by fin_cases hc <;> decide) hL
  have hf2 : BreakFree ("b/".data ++ L.data) :=
    breakFree_append _ _ (fun c hc => by fin_cases hc <;> decide) hL
  have hsplitdiff : splitLinesAux [] (generate_unified_diff A B L).data
      = unified_diff_lines (normLines (pySplitLinesKE A))
          (normLines (pySplitLinesKE B))
          ("a/".data ++ L.data) ("b/".data ++ L.data) :=
    splitLines_clean _ (clean_unified_diff_lines _ _ _ _ haclean hbclean hf1 hf2)
  have hlink := grouped_opcodes_linked (normLines (pySplitLinesKE A))
    (normLines (pySplitLinesKE B))
  simp only [applyUnifiedDiff]
  rw [hals, hsplitdiff]
  cases hgs : get_grouped_opcodes (normLines (pySplitLinesKE A))
      (normLines (pySplitLinesKE B)) 3 with
  | nil =>
    rw [hgs] at hlink
    obtain ⟨-, -, -, hsl⟩ := hlink
    rw [lslice_full, lslice_full] at hsl
    have hud : unified_diff_lines (normLines (pySplitLinesKE A))
        (normLines (pySplitLinesKE B))
        ("a/".data ++ L.data) ("b/".data ++ L.data) = [] := by
      unfold unified_diff_lines
      rw [hgs]
      rfl
    rw [hud]
    simp only [List.dropWhile_nil, patchRun, List.length_nil, List.drop_zero]
    show some (String.mk (normLines (pySplitLinesKE A)).flatten)
      = some (normalizeTrailingNewline B)
    rw [hsl, sourceLines_flatten B hB, string_mk_data]
  | cons g gs =>
    rw [hgs] at hlink
    have hlink' := hlink
    obtain ⟨s, e, t, u, hgne, -⟩ := hlink'
    cases g with
    | nil => exact absurd rfl hgne
    | cons first grest =>
      have hud : unified_diff_lines (normLines (pySplitLinesKE A))
          (normLines (pySplitLinesKE B))
          ("a/".data ++ L.data) ("b/".data ++ L.data)
          = ("--- ".data ++ ("a/".data ++ L.data) ++ ['\n'])
            :: ("+++ ".data ++ ("b/".data ++ L.data) ++ ['\n'])
            :: (((first :: grest) :: gs).map
                (hunkLines (normLines (pySplitLinesKE A))
                  (normLines (pySplitLinesKE B)))).flatten := by
        unfold unified_diff_lines
        rw [hgs]
        rfl
      have hflat : (((first :: grest) :: gs).map
          (hunkLines (normLines (pySplitLinesKE A))
            (normLines (pySplitLinesKE B)))).flatten
          = hunkHeader first.i1 ((first :: grest).getLastD first).i2 first.j1
              ((first :: grest).getLastD first).j2
            :: (((first :: grest).map (opLines (normLines (pySplitLinesKE A))
                  (normLines (pySplitLinesKE B)))).flatten
                ++ (gs.map (hunkLines (normLines (pySplitLinesKE A))
                    (normLines (pySplitLinesKE B)))).flatten) := by
        simp only [List.map_cons, List.flatten_cons, hunkLines, List.cons_append]
      have hh1 : decide (¬ ("--- ".data ++ ("a/".data ++ L.data)
          ++ ['\n']).take 4 = "@@ -".data) = true := by
        apply decide_eq_true
        intro h
        rw [List.append_assoc, take4_prefix _ _ (by decide)] at h
        exact absurd h (by decide)
      have hh2 : decide (¬ ("+++ ".data ++ ("b/".data ++ L.data)
          ++ ['\n']).take 4 = "@@ -".data) = true := by
        apply decide_eq_true
        intro h
        rw [List.append_assoc, take4_prefix _ _ (by decide)] at h
        exact absurd h (by decide)
      have hh3 : decide (¬ (hunkHeader first.i1
            ((first :: grest).getLastD first).i2 first.j1
            ((first :: grest).getLastD first).j2).take 4 = "@@ -".data)
          = false := by
        apply decide_eq_false
        intro h
        exact h (hunkHeader_take4 _ _ _ _)
      rw [hud, List.dropWhile_cons, hh1]
      simp only [if_true]
      rw [List.dropWhile_cons, hh2]
      simp only [if_true]
      rw [hflat, List.dropWhile_cons, hh3]
      simp only [Bool.false_eq_true, if_false]
      rw [← hflat]
      rw [patchRun_groups (normLines (pySplitLinesKE A))
        (normLines (pySplitLinesKE B)) ((first :: grest) :: gs) 0 0 _ hlink
        (le_refl _)]
      show some (String.mk (lslice (normLines (pySplitLinesKE B)) 0
        (normLines (pySplitLinesKE B)).length).flatten)
      = some (normalizeTrailingNewline B)
      rw [lslice_full, sourceLines_flatten B hB, string_mk_data]

/-- C6 counterexample to the literal claim: with `A = "old line\n"` and
`B = "new line"` (no trailing newline), applying the generated diff to `A`
yields `"new line\n"`, which differs from `B` — the round trip is not
byte-for-byte when `B` lacks a trailing newline. -/
theorem claim6_counterexample :
    applyUnifiedDiff (generate_unified_diff "old line\n" "new line" "f.py")
        "old line\n"
      = some "new line\n"
    ∧ applyUnifiedDiff (generate_unified_diff "old line\n" "new line" "f.py")
        "old line\n"
      ≠ some "new line" := by
  constructor
  · decide
  · decide

/-- C6 witness: the amended round trip at a concrete pair of texts. -/
theorem claim6_witness :
    OnlyLF "a\n" ∧ OnlyLF "b\n" ∧ BreakFree "f".data
    ∧ applyUnifiedDiff (generate_unified_diff "a\n" "b\n" "f")
        (normalizeTrailingNewline "a\n")
      = some (normalizeTrailingNewline "b\n") :=
  ⟨by unfold OnlyLF; decide, by unfold OnlyLF; decide,
    by unfold BreakFree; decide,
    claim6_diff_roundtrip "a\n" "b\n" "f" (by unfold OnlyLF; decide)
      (by unfold OnlyLF; decide) (by unfold BreakFree; decide)⟩
